import Mathlib

set_option linter.unusedVariables false

/-! Verification of the LRU block cache (cache.cc) and the MemRowSet
(memrowset.cc) of a columnar tablet server.  Pure functions are translated
directly; stateful code becomes explicit state passing.  Collaborators whose
implementation is outside the translated sources (the concurrent B-tree index,
the MVCC snapshot, the anchor registry, the key codec, the row projector) are
modelled from the specification and marked as such in their doc comments. -/

/-- Byte strings: cache keys and encoded row keys. -/
abbrev Key := List Nat

/-! ### LRU cache shard (cache.cc) -/

/-- Entry of an LRU shard, following struct LRUHandle in cache.cc: key, value,
charge and reference count.  The hid field is a ghost identity distinguishing
allocations (the C++ code uses the heap address of the entry); the next, prev
and next_hash pointers are represented by membership and order in the lru and
table components of the shard state. -/
structure LRUHandle where
  hid : Nat
  key : Key
  value : Nat
  charge : Nat
  refs : Nat
deriving DecidableEq

/-- State of one LRU shard (class LRUCache in cache.cc).  heap holds every
allocated and not yet freed entry; lru lists the hids of the entries on the
circular LRU list, oldest first (lru_.next first); table is the hash table as
an association list from key to hid.  handed, deleterLog, allocLog and
trackerUsage are ghost instrumentation recording outstanding caller handles,
deleter invocations in order, every allocation, and the memory tracker
balance. -/
structure CacheState where
  capacity : Nat
  usage : Nat
  heap : List LRUHandle
  lru : List Nat
  table : List (Key × Nat)
  handed : List Nat
  deleterLog : List (Nat × Key × Nat)
  allocLog : List LRUHandle
  trackerUsage : Nat
  nextId : Nat
deriving DecidableEq

/-- Total charge of a list of entries. -/
def chargeSum (heap : List LRUHandle) : Nat :=
  (heap.map LRUHandle.charge).sum

/-- Find the live entry with the given hid. -/
def findEntry (heap : List LRUHandle) (i : Nat) : Option LRUHandle :=
  heap.find? (fun e => e.hid == i)

/-- LRUCache::Unref: decrement refs; when they reach zero, subtract the charge
from usage, invoke the deleter with the key and value (recorded in the ghost
log), credit the memory tracker with the charge, and free the entry. -/
def Unref (st : CacheState) (i : Nat) : CacheState :=
  match findEntry st.heap i with
  | none => st
  | some e =>
    if e.refs ≤ 1 then
      { st with
        usage := st.usage - e.charge
        deleterLog := st.deleterLog ++ [(e.hid, e.key, e.value)]
        trackerUsage := st.trackerUsage - e.charge
        heap := st.heap.filter (fun x => x.hid ≠ i) }
    else
      { st with
        heap := st.heap.map (fun x => if x.hid = i then { x with refs := x.refs - 1 } else x) }

/-- HandleTable::Lookup: the hid bound to a key, if any. -/
def tableLookup (table : List (Key × Nat)) (k : Key) : Option Nat :=
  (table.find? (fun p => p.1 == k)).map Prod.snd

/-- HandleTable::Insert: bind the key to the new entry, replacing the old
binding in place when the key was present (the replaced entry is returned by
the caller side through tableLookup beforehand). -/
def tableInsert (table : List (Key × Nat)) (k : Key) (i : Nat) : List (Key × Nat) :=
  if (table.find? (fun p => p.1 == k)).isSome then
    table.map (fun p => if p.1 == k then (k, i) else p)
  else table ++ [(k, i)]

/-- HandleTable::Remove: drop the first binding of the key. -/
def tableRemove (table : List (Key × Nat)) (k : Key) : List (Key × Nat) :=
  table.eraseP (fun p => p.1 == k)

/-- LRUCache::Lookup: probe the table; on a hit increment refs and move the
entry to the newest end of the LRU list (LRU_Remove then LRU_Append), handing
a reference to the caller. -/
def CacheLookup (st : CacheState) (k : Key) : Option Nat × CacheState :=
  match tableLookup st.table k with
  | none => (none, st)
  | some i =>
    (some i,
      { st with
        heap := st.heap.map (fun x => if x.hid = i then { x with refs := x.refs + 1 } else x)
        lru := st.lru.erase i ++ [i]
        handed := st.handed ++ [i] })

/-- LRUCache::Release: unref the handle; the ghost list of outstanding caller
handles drops one occurrence. -/
def CacheRelease (st : CacheState) (i : Nat) : CacheState :=
  Unref { st with handed := st.handed.erase i } i

/-- LRUCache::Erase: remove the key from the table and, when it was present,
remove the entry from the LRU list and unref the reference owned by the
cache. -/
def CacheErase (st : CacheState) (k : Key) : CacheState :=
  match tableLookup st.table k with
  | none => { st with table := tableRemove st.table k }
  | some i =>
    Unref { st with table := tableRemove st.table k, lru := st.lru.erase i } i

/-- The eviction loop at the end of LRUCache::Insert: while usage exceeds
capacity and the LRU list is nonempty, take the oldest entry, remove it from
the LRU list and from the table (by its key), and unref it.  The first
argument mirrors the lru component of the state and drives the recursion. -/
def evictGo : List Nat → CacheState → CacheState
  | [], st => st
  | oldest :: rest, st =>
    if st.capacity < st.usage then
      match findEntry st.heap oldest with
      | some e =>
        evictGo rest (Unref { st with lru := rest, table := tableRemove st.table e.key } oldest)
      | none => evictGo rest { st with lru := rest }
    else st

/-- LRUCache::Insert: allocate a fresh entry with two references (one for the
cache, one for the returned handle), consume the charge from the memory
tracker, append the entry at the newest end of the LRU list, add the charge to
usage, insert into the table (unreffing a replaced entry after unlinking it
from the LRU list), and finally run the eviction loop.  Returns the handle. -/
def CacheInsert (st : CacheState) (k : Key) (v : Nat) (charge : Nat) : Nat × CacheState :=
  let e : LRUHandle := { hid := st.nextId, key := k, value := v, charge := charge, refs := 2 }
  let old := tableLookup st.table k
  let st1 : CacheState :=
    { st with
      heap := st.heap ++ [e]
      allocLog := st.allocLog ++ [e]
      trackerUsage := st.trackerUsage + charge
      lru := st.lru ++ [e.hid]
      usage := st.usage + charge
      table := tableInsert st.table k e.hid
      handed := st.handed ++ [e.hid]
      nextId := st.nextId + 1 }
  let st2 :=
    match old with
    | some oldId => Unref { st1 with lru := st1.lru.erase oldId } oldId
    | none => st1
  (e.hid, evictGo st2.lru st2)

/-- One operation on an LRU shard. -/
inductive CacheOp where
  | opInsert (k : Key) (v : Nat) (charge : Nat)
  | opLookup (k : Key)
  | opRelease (i : Nat)
  | opErase (k : Key)
deriving DecidableEq

/-- Apply one operation to the shard state. -/
def cacheStep (st : CacheState) : CacheOp → CacheState
  | .opInsert k v c => (CacheInsert st k v c).2
  | .opLookup k => (CacheLookup st k).2
  | .opRelease i => CacheRelease st i
  | .opErase k => CacheErase st k

/-- Well-formedness of one operation: a release must name a handle that the
caller actually holds (Release is only called with a handle previously
returned by Insert or Lookup and not yet released). -/
def wfOp (st : CacheState) : CacheOp → Bool
  | .opRelease i => st.handed.contains i
  | _ => true

/-- Well-formedness of a whole operation sequence from a given state. -/
def wfTrace : CacheState → List CacheOp → Bool
  | _, [] => true
  | st, op :: rest => wfOp st op && wfTrace (cacheStep st op) rest

/-- A freshly constructed shard with the given capacity. -/
def initCache (capacity : Nat) : CacheState :=
  { capacity := capacity, usage := 0, heap := [], lru := [], table := [],
    handed := [], deleterLog := [], allocLog := [], trackerUsage := 0, nextId := 0 }

/-- Run a sequence of operations on a fresh shard. -/
def runCache (capacity : Nat) (ops : List CacheOp) : CacheState :=
  ops.foldl cacheStep (initCache capacity)

/-- Sum of the charges of the entries reachable from the hash table and LRU
list (the entries currently held by the cache). -/
def inCacheChargeSum (st : CacheState) : Nat :=
  chargeSum (st.heap.filter (fun e => st.lru.contains e.hid))

/-! ### MemRowSet (memrowset.cc) -/

/-- Encoded change list payload (RowChangeList): an UPDATE carrying new column
data, a DELETE marker, or a REINSERT carrying a full row body.  Row bodies and
update payloads are opaque numbers. -/
inductive RCL where
  | update (b : Nat)
  | del
  | reinsert (b : Nat)
deriving DecidableEq

/-- Mutation node (class Mutation): a timestamp plus a change list; the next
pointers of the chain are the list structure of the redo chain, which grows at
the tail (Mutation::AppendToListAtomic publishes with release semantics). -/
structure MutNode where
  ts : Nat
  change : RCL
deriving DecidableEq

/-- Value slot stored in the index for one row (MRSRow::Header plus the row
body): insertion timestamp, redo mutation chain in append order, and the row
body. -/
structure MRSVal where
  insertionTimestamp : Nat
  redoHead : List MutNode
  body : Nat
deriving DecidableEq

/-- MRSRow::IsGhost: replay the redo chain in order; a DELETE makes the row a
ghost, a REINSERT revives it, an UPDATE leaves the status unchanged. -/
def MRSRowIsGhost (v : MRSVal) : Bool :=
  v.redoHead.foldl
    (fun g m =>
      match m.change with
      | .del => true
      | .reinsert _ => false
      | .update _ => g)
    false

/-- Memcmp order on byte strings: the index compares encoded keys bytewise,
shorter prefixes first. -/
def keyLt : Key → Key → Bool
  | [], [] => false
  | [], _ :: _ => true
  | _ :: _, [] => false
  | a :: as, b :: bs => if a < b then true else if b < a then false else keyLt as bs

/-- Less-or-equal in memcmp order. -/
def keyLe (a b : Key) : Bool := ! keyLt b a

/-- The concurrent sorted index, modelled from the spec: the CBTree
implementation is not part of the translated sources; section 4.2 of the spec
describes an ordered map from encoded key to value slot with a prepare,
exists, insert protocol and a seekable forward iterator.  It is modelled as an
association list kept sorted by keyLt. -/
abbrev MRSTree := List (Key × MRSVal)

/-- Value slot stored under a key, if present (PreparedMutation::exists plus
current_mutable_value). -/
def treeLookup : MRSTree → Key → Option MRSVal
  | [], _ => none
  | (k, v) :: rest, key => if k = key then some v else treeLookup rest key

/-- Insert a fresh key into the sorted index (PreparedMutation::Insert; the
key is absent when this is called). -/
def treeInsertSorted : MRSTree → Key → MRSVal → MRSTree
  | [], k, v => [(k, v)]
  | (k0, v0) :: rest, k, v =>
    if keyLt k k0 then (k, v) :: (k0, v0) :: rest
    else (k0, v0) :: treeInsertSorted rest k v

/-- Append a mutation node at the tail of the redo chain of the row stored
under the given key (Mutation::AppendToListAtomic on the value slot). -/
def treeAppendMutation : MRSTree → Key → MutNode → MRSTree
  | [], _, _ => []
  | (k0, v0) :: rest, k, m =>
    if k0 = k then (k0, { v0 with redoHead := v0.redoHead ++ [m] }) :: rest
    else (k0, v0) :: treeAppendMutation rest k m

/-- MemRowSet state: id, the sorted index, and instrumentation of the
collaborator calls performed by the mutating operations: the anchor value with
a count of AnchorIfMinimum calls (the OpIdAnchorRegistry collaborator,
modelled from the spec as a monotonically lowered minimum), and a count of
SlowMutators throttle checks.  debugInsertCount and debugUpdateCount mirror
the debug counters of the class. -/
structure MemRowSet where
  id : Nat
  tree : MRSTree
  anchor : Option Nat
  anchorCalls : Nat
  throttleChecks : Nat
  debugInsertCount : Nat
  debugUpdateCount : Nat
deriving DecidableEq

/-- OpIdAnchorRegistry anchoring, modelled from the spec: the anchor is
monotonically lowered to the minimum operation identifier ever submitted; the
call count is ghost instrumentation observing that the call happened. -/
def MemRowSet.anchorIfMinimum (mrs : MemRowSet) (opId : Nat) : MemRowSet :=
  { mrs with
    anchor := some (mrs.anchor.elim opId (fun a => min a opId))
    anchorCalls := mrs.anchorCalls + 1 }

/-- MemRowSet::SlowMutators: the throttle check run after a mutator; modelled
as instrumentation counting that the check ran (the real code reads the
throttle flag and possibly sleeps, which has no further functional effect). -/
def MemRowSet.slowMutators (mrs : MemRowSet) : MemRowSet :=
  { mrs with throttleChecks := mrs.throttleChecks + 1 }

/-- A client row: its key in encoded comparable form plus an opaque body. -/
structure Row where
  key : Key
  body : Nat
deriving DecidableEq

/-- Schema::EncodeComparableKey, modelled from the spec: a schema-driven
comparator-preserving encoding whose ordering is memcmp on the encoded form.
Keys of the model are already byte strings in encoded form, so the encoding is
the identity on them. -/
def encodeComparableKey (k : Key) : Key := k

/-- Status codes returned by the modelled operations (messages elided). -/
inductive Status where
  | ok
  | alreadyPresent
  | notFound
  | notSupported
deriving DecidableEq

/-- MemRowSet::Reinsert: encode a REINSERT mutation from the relocated row
copy and append it atomically to the redo chain of the existing ghost row;
returns OK. -/
def MemRowSet.Reinsert (mrs : MemRowSet) (ts : Nat) (row : Row) (encKey : Key) :
    Status × MemRowSet :=
  (Status.ok,
   { mrs with
     tree := treeAppendMutation mrs.tree encKey { ts := ts, change := RCL.reinsert row.body } })

/-- MemRowSet::Insert: encode the key and prepare it in the index.  If the key
exists and the row is live, return AlreadyPresent; if it exists as a ghost,
delegate to Reinsert and return its status directly; otherwise build the row
with an empty redo chain, insert it, anchor the op id, bump the insert counter
and run the throttle check. -/
def MemRowSet.Insert (mrs : MemRowSet) (ts : Nat) (row : Row) (opId : Nat) :
    Status × MemRowSet :=
  let encKey := encodeComparableKey row.key
  match treeLookup mrs.tree encKey with
  | some v =>
    if ! MRSRowIsGhost v then (Status.alreadyPresent, mrs)
    else mrs.Reinsert ts row encKey
  | none =>
    let mrs1 : MemRowSet :=
      { mrs with
        tree := treeInsertSorted mrs.tree encKey
          { insertionTimestamp := ts, redoHead := [], body := row.body } }
    let mrs2 := mrs1.anchorIfMinimum opId
    let mrs3 : MemRowSet := { mrs2 with debugInsertCount := mrs2.debugInsertCount + 1 }
    (Status.ok, mrs3.slowMutators)

/-- MemRowSet::MutateRow: prepare the key; an absent key or a ghost row gives
NotFound with no state change; otherwise append the change list to the redo
chain, record the MRS id in the operation result, bump mrs_consulted, anchor
the op id, bump the update counter and run the throttle check.  stats is the
mrs_consulted counter of ProbeStats and result the list of mutated store ids
of OperationResultPB. -/
def MemRowSet.MutateRow (mrs : MemRowSet) (ts : Nat) (probeKey : Key) (delta : RCL)
    (opId : Nat) (stats : Nat) (result : List Nat) :
    Status × MemRowSet × Nat × List Nat :=
  match treeLookup mrs.tree probeKey with
  | none => (Status.notFound, mrs, stats, result)
  | some v =>
    if MRSRowIsGhost v then (Status.notFound, mrs, stats, result)
    else
      let mrs1 : MemRowSet :=
        { mrs with tree := treeAppendMutation mrs.tree probeKey { ts := ts, change := delta } }
      let result1 := result ++ [mrs1.id]
      let stats1 := stats + 1
      let mrs2 := mrs1.anchorIfMinimum opId
      let mrs3 : MemRowSet := { mrs2 with debugUpdateCount := mrs2.debugUpdateCount + 1 }
      (Status.ok, mrs3.slowMutators, stats1, result1)

/-! ### MemRowSet iterator -/

/-- Iterator states of MemRowSet::Iterator. -/
inductive IterState where
  | kUninitialized
  | kScanning
  | kFinished
deriving DecidableEq

/-- MVCC snapshot, modelled from the spec: the set of committed timestamps, a
predicate deciding which operations are visible to the reader. -/
structure MvccSnapshot where
  committed : List Nat
deriving DecidableEq

/-- Whether a timestamp is committed in the snapshot. -/
def MvccSnapshot.IsCommitted (s : MvccSnapshot) (ts : Nat) : Bool :=
  s.committed.contains ts

/-- MemRowSet::Iterator state: the sorted index entries as frozen at iterator
creation, the position of the underlying index iterator, the scan state, the
pushed upper bound, and the MVCC snapshot. -/
structure MRSIter where
  entries : MRSTree
  pos : Nat
  state : IterState
  upperBound : Option Key
  snap : MvccSnapshot
deriving DecidableEq

/-- MemRowSet::NewIterator: a fresh uninitialized iterator over the current
index with the given snapshot. -/
def MemRowSet.NewIterator (mrs : MemRowSet) (snap : MvccSnapshot) : MRSIter :=
  { entries := mrs.tree, pos := 0, state := IterState.kUninitialized,
    upperBound := none, snap := snap }

/-- Position of the first index entry whose key is at or after the target;
equals the number of entries when the target is past the end. -/
def firstGe (entries : MRSTree) (k : Key) : Nat :=
  entries.findIdx (fun p => keyLe k p.1)

/-- The underlying index iterator seek (CBTreeIterator::SeekAtOrAfter on the
sorted entry list, modelled from the spec of the CSI): reposition at the first
entry at or after the key; the returned flag tells whether the iterator is
valid there. -/
def idxSeekAtOrAfter (it : MRSIter) (k : Key) : Bool × MRSIter :=
  let p := firstGe it.entries k
  (decide (p < it.entries.length), { it with pos := p })

/-- Whether the underlying index iterator is on an entry. -/
def MRSIter.isValid (it : MRSIter) : Bool :=
  decide (it.pos < it.entries.length)

/-- EncodedKeyRange of a ScanSpec: optional encoded lower and upper bounds. -/
structure EncodedKeyRange where
  lowerBound : Option Key
  upperBound : Option Key
deriving DecidableEq

/-- ScanSpec: the pushed encoded key ranges. -/
structure ScanSpec where
  encodedRanges : List EncodedKeyRange
deriving DecidableEq

/-- The upper bound update of one range inside Init: replace the current upper
bound when the range has one that is strictly smaller (keeping the minimum). -/
def applyUpper (it : MRSIter) (r : EncodedKeyRange) : MRSIter :=
  match r.upperBound with
  | some ub =>
    if it.upperBound.elim true (fun cur => keyLt ub cur) then
      { it with upperBound := some ub }
    else it
  | none => it

/-- The range resolution loop of MemRowSet::Iterator::Init: fold over the
encoded ranges tracking the maximum lower bound seen so far (seeking on each
new maximum and finishing the scan right away when that seek runs past the
end of the index) and the minimum upper bound.  Returns the iterator, the
maximum lower bound, and whether the early kFinished return was taken. -/
def initRangesLoop : MRSIter → List EncodedKeyRange → Option Key →
    MRSIter × Option Key × Bool
  | it, [], maxLower => (it, maxLower, false)
  | it, r :: rs, maxLower =>
    match r.lowerBound with
    | some lb =>
      if maxLower.elim true (fun m => keyLt m lb) then
        match idxSeekAtOrAfter it lb with
        | (ok, it1) =>
          if ok then initRangesLoop (applyUpper it1 r) rs (some lb)
          else ({ it1 with state := IterState.kFinished }, maxLower, true)
      else initRangesLoop (applyUpper it r) rs maxLower
    | none => initRangesLoop (applyUpper it r) rs maxLower

/-- MemRowSet::Iterator::Init: when the spec pushes encoded ranges, resolve
them (maximum lower bound, seeking there; minimum upper bound), finishing
immediately when a tightest lower bound seeks past the end of the index;
then enter the scanning state. -/
def MRSIter.Init (it : MRSIter) (spec : Option ScanSpec) : Status × MRSIter :=
  match spec with
  | some sp =>
    if ! sp.encodedRanges.isEmpty then
      match initRangesLoop it sp.encodedRanges none with
      | (it1, maxLower, early) =>
        if early then (Status.ok, it1)
        else
          let it2 :=
            match maxLower with
            | some lb => (idxSeekAtOrAfter it1 lb).2
            | none => it1
          (Status.ok, { it2 with state := IterState.kScanning })
    else (Status.ok, { it with state := IterState.kScanning })
  | none => (Status.ok, { it with state := IterState.kScanning })

/-- MemRowSet::Iterator::SeekAtOrAfter: a nonempty key is encoded into
tmp_buf; an empty key bypasses encoding and seeks with the empty slice.  The
underlying seek runs either way; the result is OK when the seek succeeds or
when the key was empty, NotFound otherwise.  Also returns the exact-match
flag of the underlying seek. -/
def MRSIter.SeekAtOrAfter (it : MRSIter) (key : Key) : Status × MRSIter × Bool :=
  let tmp := if key.length > 0 then encodeComparableKey key else []
  match idxSeekAtOrAfter it tmp with
  | (found, it1) =>
    let exactMatch := (it1.entries.get? it1.pos).elim false (fun p => decide (p.1 = tmp))
    if found || key.length == 0 then (Status.ok, it1, exactMatch)
    else (Status.notFound, it1, exactMatch)

/-- One output row of a row block: its selection bit and, when the row was
projected, the materialized body after applying committed mutations (none when
the row was skipped as uncommitted). -/
structure RowOut where
  selected : Bool
  body : Option Nat
deriving DecidableEq

/-- Destination row block: capacity, current row count, row contents, and a
ghost counter of arena resets. -/
structure RowBlock where
  rowCapacity : Nat
  nrows : Nat
  rows : List RowOut
  arenaResets : Nat
deriving DecidableEq

/-- RowBlock::Resize: set the row count, truncating or padding the content. -/
def RowBlock.resize (b : RowBlock) (n : Nat) : RowBlock :=
  { b with
    nrows := n
    rows := b.rows.take n ++ List.replicate (n - b.rows.length) { selected := true, body := none } }

/-- SelectionVector::SetAllTrue on the block content. -/
def RowBlock.setAllTrue (b : RowBlock) : RowBlock :=
  { b with rows := b.rows.map (fun r => { r with selected := true }) }

/-- Arena::Reset on the block arena (ghost counter). -/
def RowBlock.resetArena (b : RowBlock) : RowBlock :=
  { b with arenaResets := b.arenaResets + 1 }

/-- Projection of a stored row into the destination block
(RowProjector::ProjectRowForRead), modelled from the spec with the projection
equal to the full schema: the body is copied and the row starts selected. -/
def projectRow (v : MRSVal) : RowOut :=
  { selected := true, body := some v.body }

/-- MemRowSet::Iterator::ApplyMutationsToProjectedRow, modelled from the spec
(the function body lives in the header, outside the translated sources):
apply, in chain order, exactly the mutations whose timestamps are committed in
the snapshot; an UPDATE rewrites the projected data, DELETE clears the
selection bit, REINSERT overwrites the body from the reinserted baseline and
selects the row again. -/
def applyMutations (snap : MvccSnapshot) (muts : List MutNode) (r : RowOut) : RowOut :=
  muts.foldl
    (fun acc m =>
      if snap.IsCommitted m.ts then
        match m.change with
        | RCL.update b => { acc with body := some b }
        | RCL.del => { acc with selected := false }
        | RCL.reinsert b => { acc with selected := true, body := some b }
      else acc)
    r

/-- MemRowSet::Iterator::out_of_bounds, modelled from the spec: the scan
terminates strictly before the upper bound, so a key at or past the bound is
out of bounds. -/
def MRSIter.outOfBounds (it : MRSIter) (k : Key) : Bool :=
  it.upperBound.elim false (fun ub => keyLe ub k)

/-- Whether an upper bound was pushed. -/
def MRSIter.hasUpperBound (it : MRSIter) : Bool :=
  it.upperBound.isSome

/-- The do-while loop of MemRowSet::Iterator::FetchRows: read the entry under
the iterator; a committed row at or past the upper bound flips the state to
kFinished and breaks without being counted; a committed in-bounds row is
projected and its committed mutations applied in chain order; an uncommitted
row is marked unselected and its mutation replay skipped.  The loop continues
while advancing keeps the iterator valid and fewer than nrows rows were
fetched.  The first argument mirrors the index entries from the current
position onward and drives the recursion. -/
def fetchRowsGo : List (Key × MRSVal) → MRSIter → Nat → Nat → List RowOut →
    MRSIter × Nat × List RowOut
  | [], it, _, fetched, acc => (it, fetched, acc)
  | kv :: rest, it, nrows, fetched, acc =>
    if it.snap.IsCommitted kv.2.insertionTimestamp && it.hasUpperBound && it.outOfBounds kv.1 then
      ({ it with state := IterState.kFinished }, fetched, acc)
    else
      let out : RowOut :=
        if it.snap.IsCommitted kv.2.insertionTimestamp then
          applyMutations it.snap kv.2.redoHead (projectRow kv.2)
        else { selected := false, body := none }
      let it1 : MRSIter := { it with pos := it.pos + 1 }
      if it1.pos < it.entries.length ∧ fetched + 1 < nrows then
        fetchRowsGo rest it1 nrows (fetched + 1) (acc ++ [out])
      else (it1, fetched + 1, acc ++ [out])

/-- MemRowSet::Iterator::FetchRows: run the fetch loop from the current
position with fetched initialized to zero, producing the rows written to the
destination block. -/
def MRSIter.FetchRows (it : MRSIter) (dst : RowBlock) : MRSIter × Nat × List RowOut :=
  fetchRowsGo (it.entries.drop it.pos) it dst.nrows 0 []

/-- MemRowSet::Iterator::NextBlock: an invalid index iterator gives NotFound
with the block resized to zero; a non-scanning state gives OK with the block
resized to zero; a zero-capacity block returns OK with nothing touched;
otherwise resize the block to capacity, reset the block arena, set all
selection bits, fetch rows, and resize down to the number fetched. -/
def MRSIter.NextBlock (it : MRSIter) (dst : RowBlock) : Status × MRSIter × RowBlock :=
  if ! it.isValid then (Status.notFound, it, dst.resize 0)
  else if it.state ≠ IterState.kScanning then (Status.ok, it, dst.resize 0)
  else if dst.rowCapacity == 0 then (Status.ok, it, dst)
  else
    let dst1 := ((dst.resize dst.rowCapacity).resetArena).setAllTrue
    match it.FetchRows dst1 with
    | (it1, fetched, outRows) => (Status.ok, it1, ({ dst1 with rows := outRows }).resize fetched)

/-! ### Claim C1: oversized insert into an LRU shard -/

/-- Trace of the C1 scenario: one insert of key A with charge 10 into a fresh
shard of capacity 5. -/
def c1Trace : List CacheOp := [CacheOp.opInsert [65] 0 10]

/-- C1 counterexample: after insert(A, charge 10) into a shard of capacity 5,
usage is 10 as the claim says, but A is NOT retrievable by lookup: the
eviction loop of Insert evicts even the newly inserted entry from the hash
table and the LRU list, so the claim is false at this input. -/
theorem c1_counterexample :
    (runCache 5 c1Trace).usage = 10
    ∧ ¬ (CacheLookup (runCache 5 c1Trace) [65]).1 = some 0 := by
  decide

/-- C1 amended: after insert(A, charge 10) into a shard of capacity 5, usage
equals 10 (it may exceed capacity because eviction only unrefs entries and the
caller still holds the returned handle), but the newly inserted entry IS
itself evicted from the hash table and LRU list, so a lookup of A returns
nothing; the entry stays allocated with one reference (the caller handle) and
its deleter has not run. -/
theorem c1_amended :
    (runCache 5 c1Trace).usage = 10
    ∧ (CacheLookup (runCache 5 c1Trace) [65]).1 = none
    ∧ (runCache 5 c1Trace).lru = []
    ∧ (runCache 5 c1Trace).table = []
    ∧ (∃ e ∈ (runCache 5 c1Trace).heap, e.hid = 0 ∧ e.refs = 1 ∧ e.charge = 10)
    ∧ (runCache 5 c1Trace).deleterLog = [] := by
  decide

/-! ### Claim C2: Insert success registers the anchor and throttles -/

/-- An empty MemRowSet with id 3 used in the concrete scenarios. -/
def emptyMrs : MemRowSet :=
  { id := 3, tree := [], anchor := none, anchorCalls := 0, throttleChecks := 0,
    debugInsertCount := 0, debugUpdateCount := 0 }

/-- A MemRowSet holding key 42 as a ghost: the row was inserted and then
deleted through MutateRow. -/
def ghostMrs : MemRowSet :=
  ((emptyMrs.Insert 1 { key := [42], body := 9 } 11).2.MutateRow 2 [42] RCL.del 12 0 []).2.1

/-- C2 counterexample: inserting over a ghost row returns OK through the
REINSERT path, yet neither registers the op id with the anchorer nor runs the
throttle check, so the claim is false at this input. -/
theorem c2_counterexample :
    (ghostMrs.Insert 5 { key := [42], body := 10 } 77).1 = Status.ok
    ∧ ¬ ((ghostMrs.Insert 5 { key := [42], body := 10 } 77).2.anchorCalls
          = ghostMrs.anchorCalls + 1
        ∧ (ghostMrs.Insert 5 { key := [42], body := 10 } 77).2.throttleChecks
          = ghostMrs.throttleChecks + 1) := by
  decide

/-- C2 amended: a call to MemRowSet::Insert that returns OK through the
fresh-insert path (the key was absent) registers op_id with the anchorer and
runs the throttle check before returning; the REINSERT path (key present as a
ghost) also returns OK but performs neither. -/
theorem c2_insert_anchor_throttle (mrs : MemRowSet) (ts : Nat) (row : Row) (opId : Nat) :
    (treeLookup mrs.tree (encodeComparableKey row.key) = none →
      (mrs.Insert ts row opId).1 = Status.ok
      ∧ (mrs.Insert ts row opId).2.anchorCalls = mrs.anchorCalls + 1
      ∧ (mrs.Insert ts row opId).2.throttleChecks = mrs.throttleChecks + 1)
    ∧ (∀ v, treeLookup mrs.tree (encodeComparableKey row.key) = some v →
        MRSRowIsGhost v = true →
        (mrs.Insert ts row opId).1 = Status.ok
        ∧ (mrs.Insert ts row opId).2.anchorCalls = mrs.anchorCalls
        ∧ (mrs.Insert ts row opId).2.throttleChecks = mrs.throttleChecks) := by
  constructor
  · intro h
    simp [MemRowSet.Insert, h, MemRowSet.anchorIfMinimum, MemRowSet.slowMutators]
  · intro v h hg
    simp [MemRowSet.Insert, h, hg, MemRowSet.Reinsert]

/-- Witness for the amended C2 theorem at a fresh insert and at a ghost
reinsert. -/
theorem c2_insert_anchor_throttle_witness :
    ((emptyMrs.Insert 1 { key := [42], body := 9 } 11).1 = Status.ok
      ∧ (emptyMrs.Insert 1 { key := [42], body := 9 } 11).2.anchorCalls
        = emptyMrs.anchorCalls + 1
      ∧ (emptyMrs.Insert 1 { key := [42], body := 9 } 11).2.throttleChecks
        = emptyMrs.throttleChecks + 1)
    ∧ ((ghostMrs.Insert 5 { key := [42], body := 10 } 77).1 = Status.ok
      ∧ (ghostMrs.Insert 5 { key := [42], body := 10 } 77).2.anchorCalls
        = ghostMrs.anchorCalls
      ∧ (ghostMrs.Insert 5 { key := [42], body := 10 } 77).2.throttleChecks
        = ghostMrs.throttleChecks) :=
  ⟨(c2_insert_anchor_throttle emptyMrs 1 { key := [42], body := 9 } 11).1 (by decide),
   (c2_insert_anchor_throttle ghostMrs 5 { key := [42], body := 10 } 77).2
     { insertionTimestamp := 1, redoHead := [{ ts := 2, change := RCL.del }], body := 9 }
     (by decide) (by decide)⟩

/-! ### Claim C5: AlreadyPresent iff live collision -/

/-- C5: MemRowSet::Insert returns AlreadyPresent exactly when the key is in
the index and the replay of its mutation chain ends in a live (non-ghost)
state, and in that case the MemRowSet is left completely unchanged (no row
body inserted, no mutation appended). -/
theorem c5_already_present_iff (mrs : MemRowSet) (ts : Nat) (row : Row) (opId : Nat) :
    ((mrs.Insert ts row opId).1 = Status.alreadyPresent ↔
      ∃ v, treeLookup mrs.tree (encodeComparableKey row.key) = some v
        ∧ MRSRowIsGhost v = false)
    ∧ ((mrs.Insert ts row opId).1 = Status.alreadyPresent →
        (mrs.Insert ts row opId).2 = mrs) := by
  cases h : treeLookup mrs.tree (encodeComparableKey row.key) with
  | none =>
    simp [MemRowSet.Insert, h, MemRowSet.anchorIfMinimum, MemRowSet.slowMutators]
  | some v =>
    cases hg : MRSRowIsGhost v with
    | false => simp [MemRowSet.Insert, h, hg]
    | true => simp [MemRowSet.Insert, h, hg, MemRowSet.Reinsert]

/-- Witness for C5 at a live row (second insert of the same key). -/
theorem c5_already_present_iff_witness :
    let base := (emptyMrs.Insert 1 { key := [42], body := 9 } 11).2
    ((base.Insert 2 { key := [42], body := 9 } 12).1 = Status.alreadyPresent ↔
      ∃ v, treeLookup base.tree (encodeComparableKey [42]) = some v
        ∧ MRSRowIsGhost v = false)
    ∧ ((base.Insert 2 { key := [42], body := 9 } 12).1 = Status.alreadyPresent →
        (base.Insert 2 { key := [42], body := 9 } 12).2 = base) :=
  c5_already_present_iff (emptyMrs.Insert 1 { key := [42], body := 9 } 11).2 2
    { key := [42], body := 9 } 12

/-! ### Claim C6: MutateRow NotFound conditions and success effects -/

/-- C6: MemRowSet::MutateRow returns NotFound exactly when the key is absent
or its chain replays to a ghost, and then leaves the row set, the stats
counter and the operation result unchanged (the anchor is part of the
unchanged MemRowSet); otherwise it returns OK, appends a mutation node
carrying the change list, records the MRS id in the operation result, bumps
mrs_consulted, registers the op id with the anchorer and runs the throttle
check. -/
theorem c6_mutate_row (mrs : MemRowSet) (ts : Nat) (k : Key) (delta : RCL)
    (opId : Nat) (stats : Nat) (result : List Nat) :
    ((mrs.MutateRow ts k delta opId stats result).1 = Status.notFound ↔
      treeLookup mrs.tree k = none
      ∨ ∃ v, treeLookup mrs.tree k = some v ∧ MRSRowIsGhost v = true)
    ∧ ((mrs.MutateRow ts k delta opId stats result).1 = Status.notFound →
        (mrs.MutateRow ts k delta opId stats result).2.1 = mrs
        ∧ (mrs.MutateRow ts k delta opId stats result).2.2.1 = stats
        ∧ (mrs.MutateRow ts k delta opId stats result).2.2.2 = result)
    ∧ ((mrs.MutateRow ts k delta opId stats result).1 = Status.ok →
        (mrs.MutateRow ts k delta opId stats result).2.1.tree
          = treeAppendMutation mrs.tree k { ts := ts, change := delta }
        ∧ (mrs.MutateRow ts k delta opId stats result).2.2.2 = result ++ [mrs.id]
        ∧ (mrs.MutateRow ts k delta opId stats result).2.2.1 = stats + 1
        ∧ (mrs.MutateRow ts k delta opId stats result).2.1.anchorCalls = mrs.anchorCalls + 1
        ∧ (mrs.MutateRow ts k delta opId stats result).2.1.throttleChecks
          = mrs.throttleChecks + 1) := by
  cases h : treeLookup mrs.tree k with
  | none =>
    simp [MemRowSet.MutateRow, h]
  | some v =>
    cases hg : MRSRowIsGhost v with
    | false =>
      simp [MemRowSet.MutateRow, h, hg, MemRowSet.anchorIfMinimum, MemRowSet.slowMutators]
    | true => simp [MemRowSet.MutateRow, h, hg]

/-- Witness for C6 at a present live row. -/
theorem c6_mutate_row_witness :
    let base := (emptyMrs.Insert 1 { key := [42], body := 9 } 11).2
    ((base.MutateRow 2 [42] (RCL.update 5) 12 4 [8]).1 = Status.notFound ↔
      treeLookup base.tree [42] = none
      ∨ ∃ v, treeLookup base.tree [42] = some v ∧ MRSRowIsGhost v = true)
    ∧ ((base.MutateRow 2 [42] (RCL.update 5) 12 4 [8]).1 = Status.notFound →
        (base.MutateRow 2 [42] (RCL.update 5) 12 4 [8]).2.1 = base
        ∧ (base.MutateRow 2 [42] (RCL.update 5) 12 4 [8]).2.2.1 = 4
        ∧ (base.MutateRow 2 [42] (RCL.update 5) 12 4 [8]).2.2.2 = [8])
    ∧ ((base.MutateRow 2 [42] (RCL.update 5) 12 4 [8]).1 = Status.ok →
        (base.MutateRow 2 [42] (RCL.update 5) 12 4 [8]).2.1.tree
          = treeAppendMutation base.tree [42] { ts := 2, change := RCL.update 5 }
        ∧ (base.MutateRow 2 [42] (RCL.update 5) 12 4 [8]).2.2.2 = [8] ++ [base.id]
        ∧ (base.MutateRow 2 [42] (RCL.update 5) 12 4 [8]).2.2.1 = 4 + 1
        ∧ (base.MutateRow 2 [42] (RCL.update 5) 12 4 [8]).2.1.anchorCalls
          = base.anchorCalls + 1
        ∧ (base.MutateRow 2 [42] (RCL.update 5) 12 4 [8]).2.1.throttleChecks
          = base.throttleChecks + 1) :=
  c6_mutate_row (emptyMrs.Insert 1 { key := [42], body := 9 } 11).2 2 [42]
    (RCL.update 5) 12 4 [8]

/-! ### Claim C9: iterator SeekAtOrAfter with empty and nonempty keys -/

/-- C9: MemRowSet::Iterator::SeekAtOrAfter with an empty key always returns
OK, even when the underlying index seek finds no entry; with a nonempty key it
returns NotFound exactly when the underlying index seek fails, and OK exactly
when it succeeds. -/
theorem c9_seek_empty_key (it : MRSIter) (key : Key) :
    (key = [] → (it.SeekAtOrAfter key).1 = Status.ok)
    ∧ (key ≠ [] →
        ((it.SeekAtOrAfter key).1 = Status.ok ↔
          firstGe it.entries (encodeComparableKey key) < it.entries.length)
        ∧ ((it.SeekAtOrAfter key).1 = Status.notFound ↔
          ¬ firstGe it.entries (encodeComparableKey key) < it.entries.length)) := by
  constructor
  · intro h
    subst h
    simp [MRSIter.SeekAtOrAfter, idxSeekAtOrAfter]
  · intro h
    have hlen : key.length > 0 := by
      cases key with
      | nil => exact absurd rfl h
      | cons a as => simp
    by_cases hfound : firstGe it.entries (encodeComparableKey key) < it.entries.length
    · simp [MRSIter.SeekAtOrAfter, idxSeekAtOrAfter, hlen, hfound,
        List.length_eq_zero, h]
    · simp [MRSIter.SeekAtOrAfter, idxSeekAtOrAfter, hlen, hfound,
        List.length_eq_zero, h]

/-- Witness for C9: an empty-key seek on an empty index returns OK even
though the underlying seek finds no entry, and a nonempty-key seek on an
empty index returns NotFound. -/
theorem c9_seek_empty_key_witness :
    let it : MRSIter :=
      { entries := [], pos := 0, state := IterState.kScanning,
        upperBound := none, snap := { committed := [] } }
    ((it.SeekAtOrAfter []).1 = Status.ok)
    ∧ ((it.SeekAtOrAfter [5]).1 = Status.notFound ↔
        ¬ firstGe it.entries (encodeComparableKey [5]) < it.entries.length) :=
  let it : MRSIter :=
    { entries := [], pos := 0, state := IterState.kScanning,
      upperBound := none, snap := { committed := [] } }
  ⟨(c9_seek_empty_key it []).1 rfl,
   ((c9_seek_empty_key it [5]).2 (by decide)).2⟩

/-! ### Claim C10: NextBlock on a zero-capacity block -/

/-- C10: NextBlock called in the scanning state with a valid index iterator
and a destination block of row capacity zero returns OK and leaves both the
iterator and the block exactly as they were: no resize, no arena reset, no
selection bits set, no iterator advance. -/
theorem c10_nextblock_zero_capacity (it : MRSIter) (dst : RowBlock)
    (hvalid : it.isValid = true) (hstate : it.state = IterState.kScanning)
    (hcap : dst.rowCapacity = 0) :
    it.NextBlock dst = (Status.ok, it, dst) := by
  simp [MRSIter.NextBlock, hvalid, hstate, hcap]

/-- Witness for C10 at a one-entry iterator and an untouched empty block. -/
theorem c10_nextblock_zero_capacity_witness :
    let it : MRSIter :=
      { entries := [([5], { insertionTimestamp := 1, redoHead := [], body := 0 })],
        pos := 0, state := IterState.kScanning, upperBound := none,
        snap := { committed := [1] } }
    let dst : RowBlock := { rowCapacity := 0, nrows := 3, rows := [], arenaResets := 7 }
    it.NextBlock dst = (Status.ok, it, dst) :=
  c10_nextblock_zero_capacity _ _ (by decide) (by decide) (by decide)

/-! ### Claim C3: pushed key ranges resolve to max lower / min upper bound -/

/-- One step of the maximum over the lower bounds of the ranges, written from
the wording of the spec (max of lower bounds across all EncodedKeyRange
entries). -/
def maxLBStep (acc : Option Key) (r : EncodedKeyRange) : Option Key :=
  match r.lowerBound with
  | some lb =>
    match acc with
    | none => some lb
    | some m => if keyLt m lb then some lb else some m
  | none => acc

/-- The maximum of all lower bounds of the ranges, per the spec wording. -/
def specMaxLowerBound (ranges : List EncodedKeyRange) : Option Key :=
  ranges.foldl maxLBStep none

/-- One step of the minimum over the upper bounds of the ranges, written from
the wording of the spec (min of upper bounds). -/
def minUBStep (acc : Option Key) (r : EncodedKeyRange) : Option Key :=
  match r.upperBound with
  | some ub =>
    match acc with
    | none => some ub
    | some cur => if keyLt ub cur then some ub else some cur
  | none => acc

/-- The minimum of all upper bounds of the ranges, per the spec wording. -/
def specMinUpperBound (ranges : List EncodedKeyRange) : Option Key :=
  ranges.foldl minUBStep none

/-- The upper bound accumulated by applyUpper is exactly one fold step of the
minimum of upper bounds. -/
theorem applyUpper_upperBound (it : MRSIter) (r : EncodedKeyRange) :
    (applyUpper it r).upperBound = minUBStep it.upperBound r := by
  cases hr : r.upperBound with
  | none => simp [applyUpper, minUBStep, hr]
  | some ub =>
    cases hu : it.upperBound with
    | none => simp [applyUpper, minUBStep, hr, hu]
    | some cur =>
      by_cases hlt : keyLt ub cur = true
      · simp [applyUpper, minUBStep, hr, hu, hlt]
      · simp [applyUpper, minUBStep, hr, hu, hlt]

/-- applyUpper only touches the upper bound. -/
theorem applyUpper_rest (it : MRSIter) (r : EncodedKeyRange) :
    (applyUpper it r).entries = it.entries ∧ (applyUpper it r).pos = it.pos
    ∧ (applyUpper it r).state = it.state ∧ (applyUpper it r).snap = it.snap := by
  cases hr : r.upperBound with
  | none => simp [applyUpper, hr]
  | some ub =>
    by_cases hlt : (it.upperBound.elim true (fun cur => keyLt ub cur)) = true
    · simp [applyUpper, hr, hlt]
    · simp [applyUpper, hr, hlt]

/-- When the range loop of Init does not take the early kFinished exit, the
lower bound it accumulates is the fold of the maximum of lower bounds, the
upper bound of the iterator is the fold of the minimum of upper bounds, and
the entries, scan state and snapshot of the iterator are untouched. -/
theorem initRangesLoop_spec (rs : List EncodedKeyRange) :
    ∀ (it : MRSIter) (ml : Option Key),
      (initRangesLoop it rs ml).2.2 = false →
      (initRangesLoop it rs ml).2.1 = rs.foldl maxLBStep ml
      ∧ (initRangesLoop it rs ml).1.upperBound = rs.foldl minUBStep it.upperBound
      ∧ (initRangesLoop it rs ml).1.entries = it.entries
      ∧ (initRangesLoop it rs ml).1.state = it.state
      ∧ (initRangesLoop it rs ml).1.snap = it.snap := by
  induction rs with
  | nil =>
    intro it ml h
    simp [initRangesLoop]
  | cons r rs ih =>
    intro it ml h
    cases hl : r.lowerBound with
    | none =>
      have hstep : maxLBStep ml r = ml := by simp [maxLBStep, hl]
      have hrest := applyUpper_rest it r
      have h2 : (initRangesLoop it (r :: rs) ml) = initRangesLoop (applyUpper it r) rs ml := by
        simp [initRangesLoop, hl]
      rw [h2] at h ⊢
      have := ih (applyUpper it r) ml h
      refine ⟨?_, ?_, ?_, ?_, ?_⟩
      · rw [this.1, List.foldl_cons, hstep]
      · rw [this.2.1, List.foldl_cons, applyUpper_upperBound]
      · rw [this.2.2.1, hrest.1]
      · rw [this.2.2.2.1, hrest.2.2.1]
      · rw [this.2.2.2.2, hrest.2.2.2]
    | some lb =>
      by_cases hc : (ml.elim true (fun m => keyLt m lb)) = true
      · by_cases hseek : (firstGe it.entries lb < it.entries.length)
        · have hstep : maxLBStep ml r = some lb := by
            cases ml with
            | none => simp [maxLBStep, hl]
            | some m =>
              simp only [Option.elim] at hc
              simp [maxLBStep, hl, hc]
          have h2 : initRangesLoop it (r :: rs) ml
              = initRangesLoop (applyUpper { it with pos := firstGe it.entries lb } r) rs (some lb) := by
            simp [initRangesLoop, hl, hc, idxSeekAtOrAfter, hseek]
          rw [h2] at h ⊢
          have := ih _ _ h
          have hrest := applyUpper_rest { it with pos := firstGe it.entries lb } r
          refine ⟨?_, ?_, ?_, ?_, ?_⟩
          · rw [this.1, List.foldl_cons, hstep]
          · rw [this.2.1, List.foldl_cons, applyUpper_upperBound]
          · rw [this.2.2.1, hrest.1]
          · rw [this.2.2.2.1, hrest.2.2.1]
          · rw [this.2.2.2.2, hrest.2.2.2]
        · exfalso
          have h2 : (initRangesLoop it (r :: rs) ml).2.2 = true := by
            simp [initRangesLoop, hl, hc, idxSeekAtOrAfter, hseek]
          rw [h] at h2
          exact Bool.false_ne_true h2
      · have hstep : maxLBStep ml r = ml := by
          cases ml with
          | none => simp at hc
          | some m =>
            simp only [Option.elim] at hc
            simp [maxLBStep, hl, hc]
        have h2 : initRangesLoop it (r :: rs) ml = initRangesLoop (applyUpper it r) rs ml := by
          simp [initRangesLoop, hl, hc]
        rw [h2] at h ⊢
        have := ih (applyUpper it r) ml h
        have hrest := applyUpper_rest it r
        refine ⟨?_, ?_, ?_, ?_, ?_⟩
        · rw [this.1, List.foldl_cons, hstep]
        · rw [this.2.1, List.foldl_cons, applyUpper_upperBound]
        · rw [this.2.2.1, hrest.1]
        · rw [this.2.2.2.1, hrest.2.2.1]
        · rw [this.2.2.2.2, hrest.2.2.2]

/-- When the range loop takes the early exit, the iterator it returns is in
the kFinished state. -/
theorem initRangesLoop_early (rs : List EncodedKeyRange) :
    ∀ (it : MRSIter) (ml : Option Key),
      (initRangesLoop it rs ml).2.2 = true →
      (initRangesLoop it rs ml).1.state = IterState.kFinished := by
  induction rs with
  | nil =>
    intro it ml h
    simp [initRangesLoop] at h
  | cons r rs ih =>
    intro it ml h
    cases hl : r.lowerBound with
    | none =>
      have h2 : initRangesLoop it (r :: rs) ml = initRangesLoop (applyUpper it r) rs ml := by
        simp [initRangesLoop, hl]
      rw [h2] at h ⊢
      exact ih _ _ h
    | some lb =>
      by_cases hc : (ml.elim true (fun m => keyLt m lb)) = true
      · by_cases hseek : (firstGe it.entries lb < it.entries.length)
        · have h2 : initRangesLoop it (r :: rs) ml
              = initRangesLoop (applyUpper { it with pos := firstGe it.entries lb } r) rs (some lb) := by
            simp [initRangesLoop, hl, hc, idxSeekAtOrAfter, hseek]
          rw [h2] at h ⊢
          exact ih _ _ h
        · simp [initRangesLoop, hl, hc, idxSeekAtOrAfter, hseek]
      · have h2 : initRangesLoop it (r :: rs) ml = initRangesLoop (applyUpper it r) rs ml := by
          simp [initRangesLoop, hl, hc]
        rw [h2] at h ⊢
        exact ih _ _ h

/-- The MemRowSet of the concrete C3 scenario with keys a, b, c, d (bytes 97,
98, 99, 100) carrying bodies 1, 2, 3, 4, inserted at timestamps 1 to 4. -/
def c3Mrs : MemRowSet :=
  ((((emptyMrs.Insert 1 { key := [97], body := 1 } 1).2.Insert
      2 { key := [98], body := 2 } 2).2.Insert
      3 { key := [99], body := 3 } 3).2.Insert
      4 { key := [100], body := 4 } 4).2

/-- Snapshot committing all four inserts of the C3 scenario. -/
def c3Snap : MvccSnapshot := { committed := [1, 2, 3, 4] }

/-- The pushed range of the C3 scenario: lower bound b, upper bound d. -/
def c3Ranges : List EncodedKeyRange :=
  [{ lowerBound := some [98], upperBound := some [100] }]

/-- The C3 iterator after Init resolved the pushed range. -/
def c3Iter : MRSIter :=
  ((c3Mrs.NewIterator c3Snap).Init (some { encodedRanges := c3Ranges })).2

/-- The destination block of the C3 scenario. -/
def c3Block : RowBlock := { rowCapacity := 10, nrows := 0, rows := [], arenaResets := 0 }

/-- C3: Init resolves the pushed encoded key ranges to the maximum of all
lower bounds (where the scan seeks) and the minimum of all upper bounds
(strictly before which the scan terminates); concretely, a scan with lower
bound b and upper bound d over inserted keys a, b, c, d seeks to position 1
and returns exactly the rows of b and c, finishing at d without returning the
row whose key equals the upper bound. -/
theorem c3_scan_bounds (mrs : MemRowSet) (snap : MvccSnapshot)
    (ranges : List EncodedKeyRange) (hne : ranges ≠ []) :
    (((mrs.NewIterator snap).Init (some { encodedRanges := ranges })).1 = Status.ok
     ∧ (((mrs.NewIterator snap).Init (some { encodedRanges := ranges })).2.state
          = IterState.kScanning →
        ((mrs.NewIterator snap).Init (some { encodedRanges := ranges })).2.upperBound
          = specMinUpperBound ranges
        ∧ ∀ lb, specMaxLowerBound ranges = some lb →
            ((mrs.NewIterator snap).Init (some { encodedRanges := ranges })).2.pos
              = firstGe mrs.tree lb))
    ∧ ((c3Iter.NextBlock c3Block).1 = Status.ok
       ∧ (c3Iter.NextBlock c3Block).2.2.rows
          = [{ selected := true, body := some 2 }, { selected := true, body := some 3 }]
       ∧ (c3Iter.NextBlock c3Block).2.2.nrows = 2
       ∧ (c3Iter.NextBlock c3Block).2.1.state = IterState.kFinished
       ∧ c3Iter.pos = 1
       ∧ c3Iter.upperBound = some [100]
       ∧ c3Iter.state = IterState.kScanning) := by
  constructor
  · have hie : ranges.isEmpty = false := by
      cases ranges with
      | nil => exact absurd rfl hne
      | cons a l => rfl
    rcases hloop : initRangesLoop (mrs.NewIterator snap) ranges none with ⟨it1, ml1, early⟩
    cases early with
    | true =>
      have hfin : it1.state = IterState.kFinished := by
        have := initRangesLoop_early ranges (mrs.NewIterator snap) none (by rw [hloop])
        rw [hloop] at this
        exact this
      constructor
      · simp [MRSIter.Init, hie, hloop]
      · intro hscan
        simp [MRSIter.Init, hie, hloop] at hscan
        rw [hfin] at hscan
        exact absurd hscan (by decide)
    | false =>
      have hspec := initRangesLoop_spec ranges (mrs.NewIterator snap) none (by rw [hloop])
      rw [hloop] at hspec
      simp only at hspec
      cases hml : ml1 with
      | none =>
        constructor
        · simp [MRSIter.Init, hie, hloop, hml]
        · intro hscan
          constructor
          · have h1 := hspec.2.1
            simp [MRSIter.Init, hie, hloop, hml]
            rw [h1]
            simp [MemRowSet.NewIterator, specMinUpperBound]
          · intro lb hlb
            exfalso
            have h0 := hspec.1
            rw [hml] at h0
            rw [specMaxLowerBound, ← h0] at hlb
            exact Option.noConfusion hlb
      | some lb0 =>
        constructor
        · simp [MRSIter.Init, hie, hloop, hml, idxSeekAtOrAfter]
        · intro hscan
          constructor
          · have h1 := hspec.2.1
            simp [MRSIter.Init, hie, hloop, hml, idxSeekAtOrAfter]
            rw [h1]
            simp [MemRowSet.NewIterator, specMinUpperBound]
          · intro lb hlb
            have h0 := hspec.1
            rw [hml] at h0
            rw [specMaxLowerBound, ← h0] at hlb
            have hlb0 : lb0 = lb := Option.some.inj hlb
            subst hlb0
            have hent := hspec.2.2.1
            simp [MRSIter.Init, hie, hloop, hml, idxSeekAtOrAfter]
            rw [hent]
            simp [MemRowSet.NewIterator]
  · decide

/-- Witness for C3, instantiating the general part at the concrete C3
MemRowSet, snapshot and range. -/
theorem c3_scan_bounds_witness :
    (((c3Mrs.NewIterator c3Snap).Init (some { encodedRanges := c3Ranges })).1 = Status.ok
     ∧ (((c3Mrs.NewIterator c3Snap).Init (some { encodedRanges := c3Ranges })).2.state
          = IterState.kScanning →
        ((c3Mrs.NewIterator c3Snap).Init (some { encodedRanges := c3Ranges })).2.upperBound
          = specMinUpperBound c3Ranges
        ∧ ∀ lb, specMaxLowerBound c3Ranges = some lb →
            ((c3Mrs.NewIterator c3Snap).Init (some { encodedRanges := c3Ranges })).2.pos
              = firstGe c3Mrs.tree lb)) :=
  (c3_scan_bounds c3Mrs c3Snap c3Ranges (by decide)).1

/-! ### Claim C7: uncommitted rows are unselected and never finish the scan -/

/-- The fetch loop only ever appends to its accumulator. -/
theorem fetchRowsGo_acc_extends (remaining : List (Key × MRSVal)) :
    ∀ (it : MRSIter) (nrows fetched : Nat) (acc : List RowOut),
      ∃ tail, (fetchRowsGo remaining it nrows fetched acc).2.2 = acc ++ tail := by
  induction remaining with
  | nil =>
    intro it nrows fetched acc
    exact ⟨[], by simp [fetchRowsGo]⟩
  | cons kv rest ih =>
    intro it nrows fetched acc
    simp only [fetchRowsGo]
    by_cases hfin : (it.snap.IsCommitted kv.2.insertionTimestamp && it.hasUpperBound
        && it.outOfBounds kv.1) = true
    · rw [if_pos hfin]
      exact ⟨[], by simp⟩
    · rw [if_neg hfin]
      by_cases hc : ({ it with pos := it.pos + 1 } : MRSIter).pos < it.entries.length
          ∧ fetched + 1 < nrows
      · rw [if_pos hc]
        rcases ih { it with pos := it.pos + 1 } nrows (fetched + 1)
          (acc ++ [if it.snap.IsCommitted kv.2.insertionTimestamp then
            applyMutations it.snap kv.2.redoHead (projectRow kv.2)
          else { selected := false, body := none }]) with ⟨tail, htail⟩
        exact ⟨(if it.snap.IsCommitted kv.2.insertionTimestamp = true then
            applyMutations it.snap kv.2.redoHead (projectRow kv.2)
          else { selected := false, body := none }) :: tail,
          by rw [htail, List.append_assoc]; simp⟩
      · rw [if_neg hc]
        exact ⟨_, rfl⟩

/-- When the fetch loop flips the state to kFinished, the cause is an entry of
the remaining window that is committed in the snapshot and at or past the
upper bound; a loop started in any other state either keeps that state or
finishes through such an entry. -/
theorem fetchRowsGo_finish_cause (remaining : List (Key × MRSVal)) :
    ∀ (it : MRSIter) (nrows fetched : Nat) (acc : List RowOut),
      (fetchRowsGo remaining it nrows fetched acc).1.state = IterState.kFinished →
      it.state = IterState.kFinished ∨
      ∃ kv ∈ remaining, it.snap.IsCommitted kv.2.insertionTimestamp = true
        ∧ it.outOfBounds kv.1 = true := by
  induction remaining with
  | nil =>
    intro it nrows fetched acc h
    simp only [fetchRowsGo] at h
    exact Or.inl h
  | cons kv rest ih =>
    intro it nrows fetched acc h
    simp only [fetchRowsGo] at h
    by_cases hfin : (it.snap.IsCommitted kv.2.insertionTimestamp && it.hasUpperBound
        && it.outOfBounds kv.1) = true
    · right
      simp only [Bool.and_eq_true] at hfin
      exact ⟨kv, List.mem_cons_self _ _, hfin.1.1, hfin.2⟩
    · rw [if_neg hfin] at h
      by_cases hc : ({ it with pos := it.pos + 1 } : MRSIter).pos < it.entries.length
          ∧ fetched + 1 < nrows
      · rw [if_pos hc] at h
        rcases ih { it with pos := it.pos + 1 } nrows (fetched + 1) _ h with h1 | ⟨kv1, hmem, hcom, hoob⟩
        · exact Or.inl h1
        · exact Or.inr ⟨kv1, List.mem_cons_of_mem _ hmem, hcom, hoob⟩
      · rw [if_neg hc] at h
        exact Or.inl h

/-- C7: in the fetch loop of next_block, a row whose insertion timestamp is
not committed in the MVCC snapshot is emitted unselected and unprojected (its
mutation replay is skipped), and the transition to the finished state can only
be caused by a row whose insertion timestamp IS committed (an uncommitted row
at or past the upper bound does not finish the scan). -/
theorem c7_uncommitted_rows (remaining : List (Key × MRSVal)) (it : MRSIter)
    (nrows fetched : Nat) (acc : List RowOut)
    (hstate : it.state = IterState.kScanning) :
    ((fetchRowsGo remaining it nrows fetched acc).1.state = IterState.kFinished →
      ∃ kv ∈ remaining, it.snap.IsCommitted kv.2.insertionTimestamp = true
        ∧ it.outOfBounds kv.1 = true)
    ∧ (∀ kv rest, remaining = kv :: rest →
        it.snap.IsCommitted kv.2.insertionTimestamp = false →
        ∃ tail, (fetchRowsGo remaining it nrows fetched acc).2.2
          = acc ++ ({ selected := false, body := none } : RowOut) :: tail) := by
  constructor
  · intro h
    rcases fetchRowsGo_finish_cause remaining it nrows fetched acc h with h1 | h2
    · rw [hstate] at h1
      exact absurd h1 (by decide)
    · exact h2
  · intro kv rest hrem hcom
    subst hrem
    simp only [fetchRowsGo]
    have hfin : (it.snap.IsCommitted kv.2.insertionTimestamp && it.hasUpperBound
        && it.outOfBounds kv.1) = false := by
      rw [hcom]
      rfl
    rw [hfin]
    simp only [Bool.false_eq_true, if_false, hcom]
    by_cases hc : ({ it with pos := it.pos + 1 } : MRSIter).pos < it.entries.length
        ∧ fetched + 1 < nrows
    · rw [if_pos hc]
      rcases fetchRowsGo_acc_extends rest { it with pos := it.pos + 1 } nrows (fetched + 1)
        (acc ++ [{ selected := false, body := none }]) with ⟨tail, htail⟩
      rw [htail]
      exact ⟨tail, by simp⟩
    · rw [if_neg hc]
      exact ⟨[], by simp⟩

/-- The iterator of the C7 witness: one row inserted at timestamp 5, not
committed in the snapshot, whose key sits exactly at the upper bound. -/
def c7It : MRSIter :=
  { entries := [([97], { insertionTimestamp := 5, redoHead := [], body := 1 })],
    pos := 0, state := IterState.kScanning, upperBound := some [97],
    snap := { committed := [] } }

/-- Witness for C7: the uncommitted row at the upper bound is emitted
unselected and the loop does not finish the scan there. -/
theorem c7_uncommitted_rows_witness :
    (((fetchRowsGo (c7It.entries.drop c7It.pos) c7It 10 0 []).1.state = IterState.kFinished →
      ∃ kv ∈ c7It.entries.drop c7It.pos,
        c7It.snap.IsCommitted kv.2.insertionTimestamp = true
        ∧ c7It.outOfBounds kv.1 = true)
    ∧ (∀ kv rest, c7It.entries.drop c7It.pos = kv :: rest →
        c7It.snap.IsCommitted kv.2.insertionTimestamp = false →
        ∃ tail, (fetchRowsGo (c7It.entries.drop c7It.pos) c7It 10 0 []).2.2
          = [] ++ ({ selected := false, body := none } : RowOut) :: tail)) :=
  c7_uncommitted_rows (c7It.entries.drop c7It.pos) c7It 10 0 [] (by decide)

/-! ### Claims C4 and C8: shard accounting and reference counting.
The development proves one master invariant over all well-formed operation
sequences and derives both claims from it. -/

/-- The number of references the accounting of the shard attributes to an
entry: one when the cache holds it on the LRU list, plus one per outstanding
caller handle. -/
def trueRefs (st : CacheState) (i : Nat) : Nat :=
  (if i ∈ st.lru then 1 else 0) + st.handed.count i

/-- Well-formedness of a shard state.  extra is an offset on the reference
count of single entries, used transiently in proofs between the unlinking of
an entry and the matching Unref; the invariant proper takes extra = 0. -/
structure CacheInvAux (st : CacheState) (extra : Nat → Nat) : Prop where
  heapNodup : (st.heap.map LRUHandle.hid).Nodup
  heapLt : ∀ e ∈ st.heap, e.hid < st.nextId
  usageEq : st.usage = chargeSum st.heap
  trackerEq : st.trackerUsage = chargeSum st.heap
  lruNodup : st.lru.Nodup
  lruLive : ∀ i ∈ st.lru, ∃ e ∈ st.heap, e.hid = i
  handedLive : ∀ i ∈ st.handed, ∃ e ∈ st.heap, e.hid = i
  tableKeys : (st.table.map Prod.fst).Nodup
  tableLru : ∀ p ∈ st.table, p.2 ∈ st.lru ∧ ∃ e ∈ st.heap, e.hid = p.2 ∧ e.key = p.1
  lruTable : ∀ i ∈ st.lru, ∃ k, (k, i) ∈ st.table
  refsEq : ∀ e ∈ st.heap, e.refs = trueRefs st e.hid + extra e.hid
  allocNodup : (st.allocLog.map LRUHandle.hid).Nodup
  allocAll : ∀ i, i < st.nextId ↔ ∃ a ∈ st.allocLog, a.hid = i
  allocMatch : ∀ e ∈ st.heap, ∃ a ∈ st.allocLog,
    a.hid = e.hid ∧ a.key = e.key ∧ a.value = e.value ∧ a.charge = e.charge
  logNodup : (st.deleterLog.map (fun d => d.1)).Nodup
  logAlloc : ∀ d ∈ st.deleterLog, ∃ a ∈ st.allocLog,
    a.hid = d.1 ∧ a.key = d.2.1 ∧ a.value = d.2.2
  heapNotLogged : ∀ e ∈ st.heap, ∀ d ∈ st.deleterLog, d.1 ≠ e.hid
  allLive : ∀ i, i < st.nextId →
    (∃ e ∈ st.heap, e.hid = i) ∨ ∃ d ∈ st.deleterLog, d.1 = i

/-- The shard invariant proper. -/
def CacheInv (st : CacheState) : Prop :=
  CacheInvAux st (fun _ => 0)

/-- A successful findEntry returns a member of the heap with the wanted hid. -/
theorem findEntry_some {heap : List LRUHandle} {i : Nat} {e : LRUHandle}
    (h : findEntry heap i = some e) : e ∈ heap ∧ e.hid = i := by
  unfold findEntry at h
  refine ⟨List.mem_of_find?_eq_some h, ?_⟩
  have h1 := List.find?_some h
  simpa using h1

/-- A failing findEntry means no heap entry has that hid. -/
theorem findEntry_none {heap : List LRUHandle} {i : Nat}
    (h : findEntry heap i = none) : ∀ e ∈ heap, e.hid ≠ i := by
  intro e he
  have := List.find?_eq_none.mp h e he
  simpa using this

/-- When some heap entry has the hid, findEntry succeeds. -/
theorem findEntry_of_mem {heap : List LRUHandle} {i : Nat}
    (h : ∃ e ∈ heap, e.hid = i) :
    ∃ e, findEntry heap i = some e ∧ e ∈ heap ∧ e.hid = i := by
  rcases h with ⟨e, he, hi⟩
  cases hf : findEntry heap i with
  | none => exact absurd hi (findEntry_none hf e he)
  | some e1 => exact ⟨e1, rfl, (findEntry_some hf).1, (findEntry_some hf).2⟩

/-- Two heap entries with the same hid coincide when hids are nodup. -/
theorem hid_unique {heap : List LRUHandle} (hnd : (heap.map LRUHandle.hid).Nodup)
    {e1 e2 : LRUHandle} (h1 : e1 ∈ heap) (h2 : e2 ∈ heap) (h : e1.hid = e2.hid) :
    e1 = e2 := by
  induction heap with
  | nil => cases h1
  | cons x t ih =>
    rw [List.map_cons, List.nodup_cons] at hnd
    cases h1 with
    | head =>
      cases h2 with
      | head => rfl
      | tail _ h2t => exact absurd (h ▸ List.mem_map_of_mem LRUHandle.hid h2t) hnd.1
    | tail _ h1t =>
      cases h2 with
      | head => exact absurd (h ▸ List.mem_map_of_mem LRUHandle.hid h1t) hnd.1
      | tail _ h2t => exact ih hnd.2 h1t h2t

/-- chargeSum distributes over append. -/
theorem chargeSum_append (l1 l2 : List LRUHandle) :
    chargeSum (l1 ++ l2) = chargeSum l1 + chargeSum l2 := by
  simp [chargeSum]

/-- Splitting the charge sum at the unique entry with a given hid. -/
theorem chargeSum_filter_hid {heap : List LRUHandle} {i : Nat} {e : LRUHandle}
    (hnd : (heap.map LRUHandle.hid).Nodup) (he : e ∈ heap) (hi : e.hid = i) :
    chargeSum heap = e.charge + chargeSum (heap.filter (fun x => x.hid ≠ i)) := by
  induction heap with
  | nil => cases he
  | cons x t ih =>
    rw [List.map_cons, List.nodup_cons] at hnd
    rcases List.mem_cons.mp he with rfl | het
    · have hxt : List.filter (fun y => decide (y.hid ≠ i)) t = t := by
        apply List.filter_eq_self.mpr
        intro y hy
        simp only [decide_eq_true_eq]
        intro hcon
        exact hnd.1 (hi ▸ hcon ▸ List.mem_map_of_mem LRUHandle.hid hy)
      have hcond : (decide (e.hid ≠ i)) = false := by simp [hi]
      simp only [List.filter_cons, hcond, Bool.false_eq_true, if_false, hxt]
      simp [chargeSum]
    · have hxi : x.hid ≠ i := by
        intro hcon
        exact hnd.1 (hcon ▸ hi ▸ List.mem_map_of_mem LRUHandle.hid het)
      have hcond : (decide (x.hid ≠ i)) = true := by simp [hxi]
      simp only [List.filter_cons, hcond, if_true]
      have h1 : chargeSum (x :: t) = x.charge + chargeSum t := by simp [chargeSum]
      have h2 : chargeSum (x :: List.filter (fun y => decide (y.hid ≠ i)) t)
          = x.charge + chargeSum (List.filter (fun y => decide (y.hid ≠ i)) t) := by
        simp [chargeSum]
      rw [h1, h2, ih hnd.2 het]
      omega

/-- The refs-adjusting map leaves the hid projection unchanged. -/
theorem map_refs_hids (heap : List LRUHandle) (i : Nat) (g : Nat → Nat) :
    ((heap.map (fun x => if x.hid = i then { x with refs := g x.refs } else x)).map
      LRUHandle.hid) = heap.map LRUHandle.hid := by
  induction heap with
  | nil => rfl
  | cons x t ih =>
    by_cases hx : x.hid = i
    · simp [hx, ih]
    · simp [hx, ih]

/-- The refs-adjusting map leaves the charge sum unchanged. -/
theorem map_refs_chargeSum (heap : List LRUHandle) (i : Nat) (g : Nat → Nat) :
    chargeSum (heap.map (fun x => if x.hid = i then { x with refs := g x.refs } else x))
      = chargeSum heap := by
  induction heap with
  | nil => rfl
  | cons x t ih =>
    by_cases hx : x.hid = i
    · simp [hx, chargeSum] at *
      exact ih
    · simp [hx, chargeSum] at *
      exact ih

/-- Members of the refs-adjusted heap come from members of the heap with all
fields but refs equal. -/
theorem mem_map_refs_fields (heap : List LRUHandle) (i : Nat) (g : Nat → Nat)
    {x : LRUHandle}
    (hx : x ∈ heap.map (fun y => if y.hid = i then { y with refs := g y.refs } else y)) :
    ∃ y ∈ heap, x.hid = y.hid ∧ x.key = y.key ∧ x.value = y.value ∧ x.charge = y.charge
      ∧ ((y.hid ≠ i ∧ x = y) ∨ (y.hid = i ∧ x.refs = g y.refs)) := by
  rcases List.mem_map.mp hx with ⟨y, hy, hxy⟩
  by_cases h : y.hid = i
  · rw [if_pos h] at hxy
    subst hxy
    exact ⟨y, hy, rfl, rfl, rfl, rfl, Or.inr ⟨h, rfl⟩⟩
  · rw [if_neg h] at hxy
    subst hxy
    exact ⟨y, hy, rfl, rfl, rfl, rfl, Or.inl ⟨h, rfl⟩⟩

/-- An entry with a given hid survives the refs-adjusting map. -/
theorem exists_hid_map_refs (heap : List LRUHandle) (i : Nat) (g : Nat → Nat) {j : Nat}
    (h : ∃ e ∈ heap, e.hid = j) :
    ∃ e ∈ heap.map (fun y => if y.hid = i then { y with refs := g y.refs } else y),
      e.hid = j := by
  rcases h with ⟨e, he, hj⟩
  by_cases hei : e.hid = i
  · exact ⟨{ e with refs := g e.refs }, List.mem_map.mpr ⟨e, he, by rw [if_pos hei]⟩, hj⟩
  · exact ⟨e, List.mem_map.mpr ⟨e, he, by rw [if_neg hei]⟩, hj⟩

/-- An entry with a given hid and key survives the refs-adjusting map. -/
theorem exists_hid_key_map_refs (heap : List LRUHandle) (i : Nat) (g : Nat → Nat)
    {j : Nat} {k : Key} (h : ∃ e ∈ heap, e.hid = j ∧ e.key = k) :
    ∃ e ∈ heap.map (fun y => if y.hid = i then { y with refs := g y.refs } else y),
      e.hid = j ∧ e.key = k := by
  rcases h with ⟨e, he, hj, hk⟩
  by_cases hei : e.hid = i
  · exact ⟨{ e with refs := g e.refs }, List.mem_map.mpr ⟨e, he, by rw [if_pos hei]⟩, hj, hk⟩
  · exact ⟨e, List.mem_map.mpr ⟨e, he, by rw [if_neg hei]⟩, hj, hk⟩

/-- A successful tableLookup is a binding of the table. -/
theorem tableLookup_some {table : List (Key × Nat)} {k : Key} {i : Nat}
    (h : tableLookup table k = some i) : (k, i) ∈ table := by
  unfold tableLookup at h
  cases hf : table.find? (fun p => p.1 == k) with
  | none => rw [hf] at h; cases h
  | some p =>
    rw [hf] at h
    have hp := List.find?_some hf
    have hm := List.mem_of_find?_eq_some hf
    have hpk : p.1 = k := by simpa using hp
    have hpi : p.2 = i := by simpa using h
    have : p = (k, i) := by
      cases p
      simp only at hpk hpi
      rw [hpk, hpi]
    exact this ▸ hm

/-- A failing tableLookup means no binding carries the key. -/
theorem tableLookup_none {table : List (Key × Nat)} {k : Key}
    (h : tableLookup table k = none) : ∀ p ∈ table, p.1 ≠ k := by
  intro p hp
  unfold tableLookup at h
  cases hf : table.find? (fun q => q.1 == k) with
  | none =>
    have := List.find?_eq_none.mp hf p hp
    simpa using this
  | some q => rw [hf] at h; cases h

/-- When some binding carries the key, tableLookup succeeds with a binding of
the table. -/
theorem tableLookup_of_mem {table : List (Key × Nat)} {k : Key} {i : Nat}
    (h : (k, i) ∈ table) : ∃ j, tableLookup table k = some j ∧ (k, j) ∈ table := by
  cases hf : tableLookup table k with
  | none => exact absurd rfl (tableLookup_none hf (k, i) h)
  | some j => exact ⟨j, rfl, tableLookup_some hf⟩

/-- Under nodup keys, removing a key from the table is filtering it out. -/
theorem tableRemove_eq_filter {table : List (Key × Nat)} {k : Key}
    (hnd : (table.map Prod.fst).Nodup) :
    tableRemove table k = table.filter (fun p => ¬ p.1 = k) := by
  induction table with
  | nil => rfl
  | cons q t ih =>
    rw [List.map_cons, List.nodup_cons] at hnd
    by_cases hq : q.1 = k
    · have hqt : List.filter (fun p => !decide (p.1 = k)) t = t := by
        apply List.filter_eq_self.mpr
        intro p hp
        have hne : p.1 ≠ k := fun hcon =>
          hnd.1 (hq ▸ hcon ▸ List.mem_map_of_mem Prod.fst hp)
        simp [hne]
      simp only [tableRemove, List.eraseP_cons, hq]
      simp [List.filter_cons, hq, hqt]
    · have h1 : tableRemove (q :: t) k = q :: tableRemove t k := by
        simp [tableRemove, List.eraseP_cons, hq]
      rw [h1, ih hnd.2]
      simp [List.filter_cons, hq]

/-- Unref does not touch the LRU list, table, handed list, capacity, id
counter or allocation log. -/
theorem unref_preserves (st : CacheState) (i : Nat) :
    (Unref st i).lru = st.lru ∧ (Unref st i).table = st.table
    ∧ (Unref st i).capacity = st.capacity ∧ (Unref st i).handed = st.handed
    ∧ (Unref st i).nextId = st.nextId ∧ (Unref st i).allocLog = st.allocLog := by
  unfold Unref
  cases findEntry st.heap i with
  | none => exact ⟨rfl, rfl, rfl, rfl, rfl, rfl⟩
  | some e =>
    by_cases h : e.refs ≤ 1
    · simp [h]
    · simp [h]

/-- The key lemma of the cache development: Unref restores the invariant from
a state whose accounting is off by exactly one on the unreffed entry (the
state between unlinking an entry and the matching Unref call). -/
theorem unref_pres (st : CacheState) (i : Nat)
    (h : CacheInvAux st (fun j => if j = i then 1 else 0)) :
    CacheInv (Unref st i) := by
  unfold CacheInv Unref
  cases hf : findEntry st.heap i with
  | none =>
    refine ⟨h.heapNodup, h.heapLt, h.usageEq, h.trackerEq, h.lruNodup, h.lruLive,
      h.handedLive, h.tableKeys, h.tableLru, h.lruTable, ?_, h.allocNodup, h.allocAll,
      h.allocMatch, h.logNodup, h.logAlloc, h.heapNotLogged, h.allLive⟩
    intro e he
    have hre := h.refsEq e he
    rw [if_neg (findEntry_none hf e he)] at hre
    simpa using hre
  | some e =>
    obtain ⟨hemem, hehid⟩ := findEntry_some hf
    by_cases hr : e.refs ≤ 1
    · dsimp only
      rw [if_pos hr]
      have hre := h.refsEq e hemem
      rw [hehid, if_pos rfl] at hre
      have htrue : trueRefs st i = 0 := by omega
      have hnl : i ∉ st.lru := by
        intro hcon
        simp [trueRefs, hcon] at htrue
      have hcnt : st.handed.count i = 0 := by
        simp [trueRefs, hnl] at htrue
        exact htrue
      have hnh : i ∉ st.handed := List.count_eq_zero.mp hcnt
      have hmemf : ∀ x : LRUHandle,
          x ∈ st.heap.filter (fun y => y.hid ≠ i) ↔ x ∈ st.heap ∧ x.hid ≠ i := by
        intro x
        simp [List.mem_filter]
      have hsplit := chargeSum_filter_hid h.heapNodup hemem hehid
      refine ⟨?_, ?_, ?_, ?_, h.lruNodup, ?_, ?_, h.tableKeys, ?_, h.lruTable,
        ?_, h.allocNodup, h.allocAll, ?_, ?_, ?_, ?_, ?_⟩
      · exact h.heapNodup.sublist (List.Sublist.map _ (List.filter_sublist _))
      · intro x hx
        exact h.heapLt x ((hmemf x).mp hx).1
      · have hu := h.usageEq
        show st.usage - e.charge = chargeSum (st.heap.filter (fun y => y.hid ≠ i))
        omega
      · have hu := h.trackerEq
        show st.trackerUsage - e.charge = chargeSum (st.heap.filter (fun y => y.hid ≠ i))
        omega
      · intro j hj
        rcases h.lruLive j hj with ⟨x, hxm, hxh⟩
        have hji : j ≠ i := fun hcon => hnl (hcon ▸ hj)
        exact ⟨x, (hmemf x).mpr ⟨hxm, hxh ▸ hji⟩, hxh⟩
      · intro j hj
        rcases h.handedLive j hj with ⟨x, hxm, hxh⟩
        have hji : j ≠ i := fun hcon => hnh (hcon ▸ hj)
        exact ⟨x, (hmemf x).mpr ⟨hxm, hxh ▸ hji⟩, hxh⟩
      · intro p hp
        rcases h.tableLru p hp with ⟨hpl, x, hxm, hxh, hxk⟩
        have hpi : p.2 ≠ i := fun hcon => hnl (hcon ▸ hpl)
        exact ⟨hpl, x, (hmemf x).mpr ⟨hxm, hxh ▸ hpi⟩, hxh, hxk⟩
      · intro x hx
        rcases (hmemf x).mp hx with ⟨hxm, hxi⟩
        have := h.refsEq x hxm
        rw [if_neg hxi] at this
        show x.refs = trueRefs st x.hid + 0
        exact this
      · intro x hx
        exact h.allocMatch x ((hmemf x).mp hx).1
      · rw [List.map_append]
        refine List.Nodup.append h.logNodup (by simp) ?_
        intro a ha hb
        simp only [List.map_cons, List.map_nil, List.mem_singleton] at hb
        rcases List.mem_map.mp ha with ⟨d, hd, hda⟩
        exact h.heapNotLogged e hemem d hd (by rw [hda, hb])
      · intro d hd
        rcases List.mem_append.mp hd with hd1 | hd2
        · exact h.logAlloc d hd1
        · rcases h.allocMatch e hemem with ⟨a, ham, hah, hak, hav, hac⟩
          simp only [List.mem_singleton] at hd2
          exact ⟨a, ham, by rw [hd2]; exact hah, by rw [hd2]; exact hak,
            by rw [hd2]; exact hav⟩
      · intro x hx d hd
        rcases (hmemf x).mp hx with ⟨hxm, hxi⟩
        rcases List.mem_append.mp hd with hd1 | hd2
        · exact h.heapNotLogged x hxm d hd1
        · simp only [List.mem_singleton] at hd2
          rw [hd2]
          simpa [hehid] using hxi.symm
      · intro j hj
        rcases h.allLive j hj with ⟨y, hym, hyh⟩ | ⟨d, hdm, hdh⟩
        · by_cases hyi : y.hid = i
          · right
            refine ⟨(e.hid, e.key, e.value), by simp, ?_⟩
            simp only
            rw [hehid, ← hyi, hyh]
          · left
            exact ⟨y, (hmemf y).mpr ⟨hym, hyi⟩, hyh⟩
        · right
          exact ⟨d, List.mem_append.mpr (Or.inl hdm), hdh⟩
    · dsimp only
      rw [if_neg hr]
      refine ⟨?_, ?_, ?_, ?_, h.lruNodup, ?_, ?_, h.tableKeys, ?_, h.lruTable,
        ?_, h.allocNodup, h.allocAll, ?_, h.logNodup, h.logAlloc, ?_, ?_⟩
      · dsimp only
        rw [map_refs_hids st.heap i (fun r => r - 1)]
        exact h.heapNodup
      · intro x hx
        rcases mem_map_refs_fields st.heap i (fun r => r - 1) hx with ⟨y, hym, hxy, _, _, _, _⟩
        rw [hxy]
        exact h.heapLt y hym
      · show st.usage = chargeSum
          (st.heap.map (fun x => if x.hid = i then { x with refs := x.refs - 1 } else x))
        rw [map_refs_chargeSum st.heap i (fun r => r - 1)]
        exact h.usageEq
      · show st.trackerUsage = chargeSum
          (st.heap.map (fun x => if x.hid = i then { x with refs := x.refs - 1 } else x))
        rw [map_refs_chargeSum st.heap i (fun r => r - 1)]
        exact h.trackerEq
      · intro j hj
        exact exists_hid_map_refs st.heap i (fun r => r - 1) (h.lruLive j hj)
      · intro j hj
        exact exists_hid_map_refs st.heap i (fun r => r - 1) (h.handedLive j hj)
      · intro p hp
        rcases h.tableLru p hp with ⟨hpl, hpe⟩
        exact ⟨hpl, exists_hid_key_map_refs st.heap i (fun r => r - 1) hpe⟩
      · intro x hx
        rcases mem_map_refs_fields st.heap i (fun r => r - 1) hx with ⟨y, hym, hxy, _, _, _, hcase⟩
        have hry := h.refsEq y hym
        rcases hcase with ⟨hyi, hxeq⟩ | ⟨hyi, hxr⟩
        · rw [if_neg hyi] at hry
          rw [hxeq]
          show y.refs = trueRefs st y.hid + 0
          exact hry
        · rw [if_pos hyi] at hry
          rw [hxy, hyi]
          show x.refs = trueRefs st i + 0
          rw [hxr, hry, hyi]
          omega
      · intro x hx
        rcases mem_map_refs_fields st.heap i (fun r => r - 1) hx with ⟨y, hym, hxy, hky, hvy, hcy, _⟩
        rcases h.allocMatch y hym with ⟨a, ham, hah, hak, hav, hac⟩
        exact ⟨a, ham, by rw [hxy]; exact hah, by rw [hky]; exact hak,
          by rw [hvy]; exact hav, by rw [hcy]; exact hac⟩
      · intro x hx d hd
        rcases mem_map_refs_fields st.heap i (fun r => r - 1) hx with ⟨y, hym, hxy, _, _, _, _⟩
        rw [hxy]
        exact h.heapNotLogged y hym d hd
      · intro j hj
        rcases h.allLive j hj with ⟨y, hym, hyh⟩ | hlog
        · exact Or.inl (exists_hid_map_refs st.heap i (fun r => r - 1) ⟨y, hym, hyh⟩)
        · exact Or.inr hlog

/-- Two table bindings with the same key coincide when keys are nodup. -/
theorem table_key_unique {table : List (Key × Nat)} (hnd : (table.map Prod.fst).Nodup)
    {p q : Key × Nat} (hp : p ∈ table) (hq : q ∈ table) (h : p.1 = q.1) : p = q := by
  induction table with
  | nil => cases hp
  | cons x t ih =>
    rw [List.map_cons, List.nodup_cons] at hnd
    cases hp with
    | head =>
      cases hq with
      | head => rfl
      | tail _ hqt => exact absurd (h ▸ List.mem_map_of_mem Prod.fst hqt) hnd.1
    | tail _ hpt =>
      cases hq with
      | head => exact absurd (h ▸ List.mem_map_of_mem Prod.fst hpt) hnd.1
      | tail _ hqt => exact ih hnd.2 hpt hqt

/-- The eviction loop preserves the invariant when its list argument is in
sync with the LRU list of the state. -/
theorem evict_pres : ∀ (l : List Nat) (st : CacheState), st.lru = l → CacheInv st →
    CacheInv (evictGo l st) := by
  intro l
  induction l with
  | nil =>
    intro st hsync hinv
    simpa [evictGo] using hinv
  | cons oldest rest ih =>
    intro st hsync hinv
    by_cases hcap : st.capacity < st.usage
    · have hold : oldest ∈ st.lru := by
        rw [hsync]
        exact List.mem_cons_self _ _
      rcases findEntry_of_mem (hinv.lruLive oldest hold) with ⟨e, hfe, hemem, hehid⟩
      have hrestnd : oldest ∉ rest ∧ rest.Nodup := by
        have hn := hinv.lruNodup
        rw [hsync, List.nodup_cons] at hn
        exact hn
      rcases hinv.lruTable oldest hold with ⟨k0, hk0⟩
      rcases hinv.tableLru (k0, oldest) hk0 with ⟨-, x, hxm, hxh, hxk⟩
      have hxe : x = e := hid_unique hinv.heapNodup hxm hemem (by rw [hxh, hehid])
      have hek : e.key = k0 := by rw [← hxe]; exact hxk
      have hbind : (e.key, oldest) ∈ st.table := by
        rw [hek]
        exact hk0
      have hmemrem : ∀ q : Key × Nat,
          q ∈ tableRemove st.table e.key ↔ q ∈ st.table ∧ ¬ q.1 = e.key := by
        intro q
        rw [tableRemove_eq_filter hinv.tableKeys]
        simp [List.mem_filter]
      have hstep : evictGo (oldest :: rest) st
          = evictGo rest
            (Unref { st with lru := rest, table := tableRemove st.table e.key } oldest) := by
        simp [evictGo, hcap, hfe]
      rw [hstep]
      have haux : CacheInvAux { st with lru := rest, table := tableRemove st.table e.key }
          (fun j => if j = oldest then 1 else 0) := by
        refine ⟨hinv.heapNodup, hinv.heapLt, hinv.usageEq, hinv.trackerEq, hrestnd.2,
          ?_, hinv.handedLive, ?_, ?_, ?_, ?_, hinv.allocNodup, hinv.allocAll,
          hinv.allocMatch, hinv.logNodup, hinv.logAlloc, hinv.heapNotLogged, hinv.allLive⟩
        · intro j hj
          refine hinv.lruLive j ?_
          rw [hsync]
          exact List.mem_cons_of_mem _ hj
        · exact hinv.tableKeys.sublist (List.Sublist.map _ (List.eraseP_sublist _))
        · intro q hq
          rcases (hmemrem q).mp hq with ⟨hqt, hqk⟩
          rcases hinv.tableLru q hqt with ⟨hql, y, hym, hyh, hyk⟩
          have hqo : q.2 ≠ oldest := by
            intro hcon
            have hye : y = e := hid_unique hinv.heapNodup hym hemem (by rw [hyh, hcon, hehid])
            exact hqk (by rw [← hyk, hye])
          have hqr : q.2 ∈ rest := by
            have := hql
            rw [hsync] at this
            rcases List.mem_cons.mp this with h1 | h1
            · exact absurd h1 hqo
            · exact h1
          exact ⟨hqr, y, hym, hyh, hyk⟩
        · intro j hj
          have hjl : j ∈ st.lru := by
            rw [hsync]
            exact List.mem_cons_of_mem _ hj
          rcases hinv.lruTable j hjl with ⟨k1, hk1⟩
          refine ⟨k1, (hmemrem (k1, j)).mpr ⟨hk1, ?_⟩⟩
          intro hcon
          have : (k1, j) = (e.key, oldest) :=
            table_key_unique hinv.tableKeys hk1 hbind hcon
          have hj0 : j = oldest := congrArg Prod.snd this
          exact hrestnd.1 (hj0 ▸ hj)
        · intro y hy
          have hry := hinv.refsEq y hy
          show y.refs = ((if y.hid ∈ rest then 1 else 0) + st.handed.count y.hid)
            + (if y.hid = oldest then 1 else 0)
          have hmem : y.hid ∈ st.lru ↔ (y.hid = oldest ∨ y.hid ∈ rest) := by
            rw [hsync]
            exact List.mem_cons
          by_cases hyo : y.hid = oldest
          · rw [if_pos hyo, if_neg (by rw [hyo]; exact hrestnd.1)]
            have hin : y.hid ∈ st.lru := hmem.mpr (Or.inl hyo)
            rw [show trueRefs st y.hid = 1 + st.handed.count y.hid from by
              unfold trueRefs; rw [if_pos hin]] at hry
            omega
          · rw [if_neg hyo]
            by_cases hyr : y.hid ∈ rest
            · rw [if_pos hyr]
              have hin : y.hid ∈ st.lru := hmem.mpr (Or.inr hyr)
              rw [show trueRefs st y.hid = 1 + st.handed.count y.hid from by
                unfold trueRefs; rw [if_pos hin]] at hry
              omega
            · rw [if_neg hyr]
              have hnin : y.hid ∉ st.lru := by
                intro hcon
                rcases hmem.mp hcon with h1 | h1
                exacts [hyo h1, hyr h1]
              rw [show trueRefs st y.hid = 0 + st.handed.count y.hid from by
                unfold trueRefs; rw [if_neg hnin]] at hry
              omega
      have hinv2 := unref_pres _ oldest haux
      have hlru2 : (Unref { st with lru := rest, table := tableRemove st.table e.key }
          oldest).lru = rest := (unref_preserves _ _).1
      exact ih _ hlru2 hinv2
    · simpa [evictGo, hcap] using hinv

/-- Lookup preserves the invariant. -/
theorem lookup_pres (st : CacheState) (k : Key) (hinv : CacheInv st) :
    CacheInv (CacheLookup st k).2 := by
  unfold CacheLookup
  cases hl : tableLookup st.table k with
  | none => exact hinv
  | some i =>
    have hbind : (k, i) ∈ st.table := tableLookup_some hl
    rcases hinv.tableLru (k, i) hbind with ⟨hil, y0, hy0m, hy0h, hy0k⟩
    have hinodup := hinv.lruNodup
    have hset : ∀ j, (j ∈ st.lru.erase i ++ [i]) ↔ j ∈ st.lru := by
      intro j
      by_cases hj : j = i
      · subst hj
        simp [hil]
      · simp only [List.mem_append, List.mem_singleton, hj, or_false]
        exact List.mem_erase_of_ne hj
    have hcnt : ∀ j, (st.handed ++ [i]).count j
        = st.handed.count j + (if j = i then 1 else 0) := by
      intro j
      rw [List.count_append]
      by_cases hj : j = i
      · subst hj
        simp
      · simp [List.count_singleton, hj]
    dsimp only
    refine ⟨?_, ?_, ?_, ?_, ?_, ?_, ?_, hinv.tableKeys, ?_, ?_, ?_, hinv.allocNodup,
      hinv.allocAll, ?_, hinv.logNodup, hinv.logAlloc, ?_, ?_⟩
    · dsimp only
      rw [map_refs_hids st.heap i (fun r => r + 1)]
      exact hinv.heapNodup
    · intro x hx
      rcases mem_map_refs_fields st.heap i (fun r => r + 1) hx with ⟨y, hym, hxy, _, _, _, _⟩
      rw [hxy]
      exact hinv.heapLt y hym
    · show st.usage = chargeSum
        (st.heap.map (fun x => if x.hid = i then { x with refs := x.refs + 1 } else x))
      rw [map_refs_chargeSum st.heap i (fun r => r + 1)]
      exact hinv.usageEq
    · show st.trackerUsage = chargeSum
        (st.heap.map (fun x => if x.hid = i then { x with refs := x.refs + 1 } else x))
      rw [map_refs_chargeSum st.heap i (fun r => r + 1)]
      exact hinv.trackerEq
    · show (st.lru.erase i ++ [i]).Nodup
      refine List.Nodup.append (hinodup.erase i) (by simp) ?_
      intro a ha hb
      simp only [List.mem_singleton] at hb
      subst hb
      exact (hinodup.not_mem_erase) ha
    · intro j hj
      exact exists_hid_map_refs st.heap i (fun r => r + 1) (hinv.lruLive j ((hset j).mp hj))
    · intro j hj
      rcases List.mem_append.mp hj with hj1 | hj2
      · exact exists_hid_map_refs st.heap i (fun r => r + 1) (hinv.handedLive j hj1)
      · simp only [List.mem_singleton] at hj2
        rw [hj2]
        exact exists_hid_map_refs st.heap i (fun r => r + 1) ⟨y0, hy0m, hy0h⟩
    · intro p hp
      rcases hinv.tableLru p hp with ⟨hpl, hpe⟩
      exact ⟨(hset p.2).mpr hpl, exists_hid_key_map_refs st.heap i (fun r => r + 1) hpe⟩
    · intro j hj
      exact hinv.lruTable j ((hset j).mp hj)
    · intro x hx
      rcases mem_map_refs_fields st.heap i (fun r => r + 1) hx with ⟨y, hym, hxy, _, _, _, hcase⟩
      have hry := hinv.refsEq y hym
      show x.refs = ((if x.hid ∈ st.lru.erase i ++ [i] then 1 else 0)
        + (st.handed ++ [i]).count x.hid) + 0
      rcases hcase with ⟨hyi, hxeq⟩ | ⟨hyi, hxr⟩
      · subst hxeq
        rw [hcnt]
        have hm : (x.hid ∈ st.lru.erase i ++ [i]) ↔ x.hid ∈ st.lru := hset x.hid
        rw [show trueRefs st x.hid = (if x.hid ∈ st.lru then 1 else 0)
          + st.handed.count x.hid from rfl] at hry
        rw [if_neg hyi]
        by_cases hin : x.hid ∈ st.lru
        · rw [if_pos (hm.mpr hin)]
          rw [if_pos hin] at hry
          omega
        · rw [if_neg (fun hcon => hin (hm.mp hcon))]
          rw [if_neg hin] at hry
          omega
      · have hxh : x.hid = i := by rw [hxy, hyi]
        rw [hxh, hcnt, if_pos rfl]
        have hin : (i ∈ st.lru.erase i ++ [i]) := by simp
        rw [if_pos hin]
        have hil2 : i ∈ st.lru := hil
        have hry2 : y.refs = 1 + st.handed.count i := by
          rw [show trueRefs st y.hid = (if y.hid ∈ st.lru then 1 else 0)
            + st.handed.count y.hid from rfl, hyi, if_pos hil2] at hry
          omega
        omega
    · intro x hx
      rcases mem_map_refs_fields st.heap i (fun r => r + 1) hx with ⟨y, hym, hxy, hky, hvy, hcy, _⟩
      rcases hinv.allocMatch y hym with ⟨a, ham, hah, hak, hav, hac⟩
      exact ⟨a, ham, by rw [hxy]; exact hah, by rw [hky]; exact hak,
        by rw [hvy]; exact hav, by rw [hcy]; exact hac⟩
    · intro x hx d hd
      rcases mem_map_refs_fields st.heap i (fun r => r + 1) hx with ⟨y, hym, hxy, _, _, _, _⟩
      rw [hxy]
      exact hinv.heapNotLogged y hym d hd
    · intro j hj
      rcases hinv.allLive j hj with ⟨y, hym, hyh⟩ | hlog
      · exact Or.inl (exists_hid_map_refs st.heap i (fun r => r + 1) ⟨y, hym, hyh⟩)
      · exact Or.inr hlog

/-- Release preserves the invariant when the released handle is actually
outstanding. -/
theorem release_pres (st : CacheState) (i : Nat) (hinv : CacheInv st)
    (hw : i ∈ st.handed) : CacheInv (CacheRelease st i) := by
  unfold CacheRelease
  apply unref_pres
  have hcpos : 0 < st.handed.count i := List.count_pos_iff.mpr hw
  refine ⟨hinv.heapNodup, hinv.heapLt, hinv.usageEq, hinv.trackerEq, hinv.lruNodup,
    hinv.lruLive, ?_, hinv.tableKeys, hinv.tableLru, hinv.lruTable, ?_,
    hinv.allocNodup, hinv.allocAll, hinv.allocMatch, hinv.logNodup, hinv.logAlloc,
    hinv.heapNotLogged, hinv.allLive⟩
  · intro j hj
    exact hinv.handedLive j (List.mem_of_mem_erase hj)
  · intro x hx
    have hrx := hinv.refsEq x hx
    show x.refs = ((if x.hid ∈ st.lru then 1 else 0) + (st.handed.erase i).count x.hid)
      + (if x.hid = i then 1 else 0)
    rw [show trueRefs st x.hid = (if x.hid ∈ st.lru then 1 else 0)
      + st.handed.count x.hid from rfl] at hrx
    by_cases hxi : x.hid = i
    · subst hxi
      rw [if_pos rfl, List.count_erase_self]
      omega
    · rw [if_neg hxi, List.count_erase_of_ne hxi]
      omega

/-- Erase preserves the invariant. -/
theorem erase_pres (st : CacheState) (k : Key) (hinv : CacheInv st) :
    CacheInv (CacheErase st k) := by
  unfold CacheErase
  cases hl : tableLookup st.table k with
  | none =>
    have hrm : tableRemove st.table k = st.table := by
      apply List.eraseP_of_forall_not
      intro p hp
      simp [tableLookup_none hl p hp]
    dsimp only
    rw [hrm]
    exact hinv
  | some i =>
    have hbind : (k, i) ∈ st.table := tableLookup_some hl
    rcases hinv.tableLru (k, i) hbind with ⟨hil, y0, hy0m, hy0h, hy0k⟩
    have hmemrem : ∀ q : Key × Nat,
        q ∈ tableRemove st.table k ↔ q ∈ st.table ∧ ¬ q.1 = k := by
      intro q
      rw [tableRemove_eq_filter hinv.tableKeys]
      simp [List.mem_filter]
    apply unref_pres
    refine ⟨hinv.heapNodup, hinv.heapLt, hinv.usageEq, hinv.trackerEq,
      hinv.lruNodup.erase i, ?_, hinv.handedLive, ?_, ?_, ?_, ?_,
      hinv.allocNodup, hinv.allocAll, hinv.allocMatch, hinv.logNodup, hinv.logAlloc,
      hinv.heapNotLogged, hinv.allLive⟩
    · intro j hj
      exact hinv.lruLive j (List.mem_of_mem_erase hj)
    · exact hinv.tableKeys.sublist (List.Sublist.map _ (List.eraseP_sublist _))
    · intro q hq
      rcases (hmemrem q).mp hq with ⟨hqt, hqk⟩
      rcases hinv.tableLru q hqt with ⟨hql, y, hym, hyh, hyk⟩
      have hqi : q.2 ≠ i := by
        intro hcon
        have hye : y = y0 := hid_unique hinv.heapNodup hym hy0m (by rw [hyh, hcon, hy0h])
        exact hqk (by rw [← hyk, hye, hy0k])
      refine ⟨?_, y, hym, hyh, hyk⟩
      rw [(hinv.lruNodup.mem_erase_iff)]
      exact ⟨hqi, hql⟩
    · intro j hj
      rw [hinv.lruNodup.mem_erase_iff] at hj
      rcases hinv.lruTable j hj.2 with ⟨k1, hk1⟩
      refine ⟨k1, (hmemrem (k1, j)).mpr ⟨hk1, ?_⟩⟩
      intro hcon
      have : (k1, j) = (k, i) := table_key_unique hinv.tableKeys hk1 hbind hcon
      exact hj.1 (congrArg Prod.snd this)
    · intro x hx
      have hrx := hinv.refsEq x hx
      show x.refs = ((if x.hid ∈ st.lru.erase i then 1 else 0) + st.handed.count x.hid)
        + (if x.hid = i then 1 else 0)
      rw [show trueRefs st x.hid = (if x.hid ∈ st.lru then 1 else 0)
        + st.handed.count x.hid from rfl] at hrx
      by_cases hxi : x.hid = i
      · subst hxi
        rw [if_pos rfl, if_neg (hinv.lruNodup.not_mem_erase), if_pos hil] at *
        omega
      · rw [if_neg hxi]
        have hiff : x.hid ∈ st.lru.erase i ↔ x.hid ∈ st.lru := List.mem_erase_of_ne hxi
        by_cases hin : x.hid ∈ st.lru
        · rw [if_pos (hiff.mpr hin)]
          rw [if_pos hin] at hrx
          omega
        · rw [if_neg (fun hcon => hin (hiff.mp hcon))]
          rw [if_neg hin] at hrx
          omega

/-- A failing tableLookup means the underlying probe fails. -/
theorem tableLookup_none_find {table : List (Key × Nat)} {k : Key}
    (h : tableLookup table k = none) : table.find? (fun p => p.1 == k) = none := by
  unfold tableLookup at h
  cases hf : table.find? (fun p => p.1 == k) with
  | none => rfl
  | some p => rw [hf] at h; cases h

/-- A successful tableLookup means the underlying probe succeeds. -/
theorem tableLookup_some_isSome {table : List (Key × Nat)} {k : Key} {i : Nat}
    (h : tableLookup table k = some i) :
    (table.find? (fun p => p.1 == k)).isSome = true := by
  unfold tableLookup at h
  cases hf : table.find? (fun p => p.1 == k) with
  | none => rw [hf] at h; cases h
  | some p => rfl

/-- Replacing a binding in place leaves the key projection of the table
unchanged. -/
theorem tableInsert_replace_keys (table : List (Key × Nat)) (k : Key) (i : Nat) :
    ((table.map (fun p => if p.1 == k then (k, i) else p)).map Prod.fst)
      = table.map Prod.fst := by
  induction table with
  | nil => rfl
  | cons q t ih =>
    by_cases hq : q.1 = k
    · have hb : (q.1 == k) = true := by simp [hq]
      simp only [List.map_cons, hb, if_true, ih]
      rw [hq]
    · have hb : (q.1 == k) = false := by simp [hq]
      simp only [List.map_cons, hb, Bool.false_eq_true, if_false, ih]

/-- The state right after the allocation part of LRUCache::Insert: fresh entry
appended to heap, LRU and table, accounting charged, handle handed out. -/
def insertedState (st : CacheState) (k : Key) (v c : Nat) : CacheState :=
  { capacity := st.capacity
    usage := st.usage + c
    heap := st.heap ++ [{ hid := st.nextId, key := k, value := v, charge := c, refs := 2 }]
    lru := st.lru ++ [st.nextId]
    table := tableInsert st.table k st.nextId
    handed := st.handed ++ [st.nextId]
    deleterLog := st.deleterLog
    allocLog := st.allocLog ++ [{ hid := st.nextId, key := k, value := v, charge := c, refs := 2 }]
    trackerUsage := st.trackerUsage + c
    nextId := st.nextId + 1 }

/-- CacheInsert in terms of insertedState, the replaced-entry Unref and the
eviction loop. -/
theorem cacheInsert_eq (st : CacheState) (k : Key) (v c : Nat) :
    (CacheInsert st k v c).2 =
      match tableLookup st.table k with
      | some oldId =>
          evictGo (Unref { insertedState st k v c with
              lru := (insertedState st k v c).lru.erase oldId } oldId).lru
            (Unref { insertedState st k v c with
              lru := (insertedState st k v c).lru.erase oldId } oldId)
      | none => evictGo (insertedState st k v c).lru (insertedState st k v c) := by
  unfold CacheInsert insertedState
  cases tableLookup st.table k with
  | none => rfl
  | some oldId => rfl

/-- Freshness of the next id with respect to every component of a
well-formed state. -/
theorem fresh_facts (st : CacheState) (hinv : CacheInv st) :
    (∀ x ∈ st.heap, x.hid ≠ st.nextId) ∧ st.nextId ∉ st.lru ∧ st.nextId ∉ st.handed
    ∧ (∀ a ∈ st.allocLog, a.hid ≠ st.nextId) ∧ ∀ d ∈ st.deleterLog, d.1 ≠ st.nextId := by
  have hfr : ∀ x ∈ st.heap, x.hid ≠ st.nextId := by
    intro x hx hcon
    have := hinv.heapLt x hx
    omega
  have hna : ∀ a ∈ st.allocLog, a.hid ≠ st.nextId := by
    intro a ha hcon
    have := (hinv.allocAll st.nextId).mpr ⟨a, ha, hcon⟩
    omega
  refine ⟨hfr, ?_, ?_, hna, ?_⟩
  · intro hcon
    rcases hinv.lruLive _ hcon with ⟨x, hx, hxh⟩
    exact hfr x hx hxh
  · intro hcon
    rcases hinv.handedLive _ hcon with ⟨x, hx, hxh⟩
    exact hfr x hx hxh
  · intro d hd hcon
    rcases hinv.logAlloc d hd with ⟨a, ha, hah, -, -⟩
    exact hna a ha (by rw [hah, hcon])

/-- After a fresh insert with no replaced key, the allocation part of Insert
leaves the shard well formed. -/
theorem insertedState_inv_none (st : CacheState) (k : Key) (v c : Nat)
    (hinv : CacheInv st) (hold : tableLookup st.table k = none) :
    CacheInv (insertedState st k v c) := by
  obtain ⟨hfr, hnl, hnh, hna, hndl⟩ := fresh_facts st hinv
  have hkk : ∀ p ∈ st.table, p.1 ≠ k := tableLookup_none hold
  have hti : tableInsert st.table k st.nextId = st.table ++ [(k, st.nextId)] := by
    unfold tableInsert
    rw [tableLookup_none_find hold]
    rfl
  unfold insertedState CacheInv
  rw [hti]
  refine ⟨?_, ?_, ?_, ?_, ?_, ?_, ?_, ?_, ?_, ?_, ?_, ?_, ?_, ?_, hinv.logNodup,
    ?_, ?_, ?_⟩
  · show ((st.heap ++ [(⟨st.nextId, k, v, c, 2⟩ : LRUHandle)]).map LRUHandle.hid).Nodup
    rw [List.map_append]
    refine List.Nodup.append hinv.heapNodup (by simp) ?_
    intro a ha hb
    simp at hb
    rcases List.mem_map.mp ha with ⟨x, hx, hxa⟩
    exact hfr x hx (hxa.trans hb)
  · intro x hx
    show x.hid < st.nextId + 1
    rcases List.mem_append.mp hx with h1 | h1
    · have := hinv.heapLt x h1
      omega
    · simp only [List.mem_singleton] at h1
      subst h1
      show st.nextId < st.nextId + 1
      omega
  · show st.usage + c = chargeSum (st.heap ++ [(⟨st.nextId, k, v, c, 2⟩ : LRUHandle)])
    rw [chargeSum_append, hinv.usageEq]
    simp [chargeSum]
  · show st.trackerUsage + c = chargeSum (st.heap ++ [(⟨st.nextId, k, v, c, 2⟩ : LRUHandle)])
    rw [chargeSum_append, hinv.trackerEq]
    simp [chargeSum]
  · show (st.lru ++ [st.nextId]).Nodup
    refine List.Nodup.append hinv.lruNodup (by simp) ?_
    intro a ha hb
    simp only [List.mem_singleton] at hb
    exact hnl (hb ▸ ha)
  · intro j hj
    rcases List.mem_append.mp hj with h1 | h1
    · rcases hinv.lruLive j h1 with ⟨x, hx, hxh⟩
      exact ⟨x, List.mem_append_left _ hx, hxh⟩
    · simp only [List.mem_singleton] at h1
      exact ⟨⟨st.nextId, k, v, c, 2⟩, List.mem_append_right _ (by simp), by rw [h1]⟩
  · intro j hj
    rcases List.mem_append.mp hj with h1 | h1
    · rcases hinv.handedLive j h1 with ⟨x, hx, hxh⟩
      exact ⟨x, List.mem_append_left _ hx, hxh⟩
    · simp only [List.mem_singleton] at h1
      exact ⟨⟨st.nextId, k, v, c, 2⟩, List.mem_append_right _ (by simp), by rw [h1]⟩
  · show ((st.table ++ [(k, st.nextId)]).map Prod.fst).Nodup
    rw [List.map_append]
    refine List.Nodup.append hinv.tableKeys (by simp) ?_
    intro a ha hb
    simp at hb
    rcases List.mem_map.mp ha with ⟨p, hp, hpa⟩
    exact hkk p hp (hpa.trans hb)
  · intro p hp
    rcases List.mem_append.mp hp with h1 | h1
    · rcases hinv.tableLru p h1 with ⟨hpl, x, hx, hxh, hxk⟩
      exact ⟨List.mem_append_left _ hpl, x, List.mem_append_left _ hx, hxh, hxk⟩
    · simp only [List.mem_singleton] at h1
      subst h1
      exact ⟨List.mem_append_right _ (by simp), ⟨st.nextId, k, v, c, 2⟩,
        List.mem_append_right _ (by simp), rfl, rfl⟩
  · intro j hj
    rcases List.mem_append.mp hj with h1 | h1
    · rcases hinv.lruTable j h1 with ⟨k1, hk1⟩
      exact ⟨k1, List.mem_append_left _ hk1⟩
    · simp only [List.mem_singleton] at h1
      subst h1
      exact ⟨k, List.mem_append_right _ (by simp)⟩
  · intro x hx
    rcases List.mem_append.mp hx with h1 | h1
    · have hxn : x.hid ≠ st.nextId := hfr x h1
      have hrx := hinv.refsEq x h1
      show x.refs = ((if x.hid ∈ st.lru ++ [st.nextId] then 1 else 0)
        + (st.handed ++ [st.nextId]).count x.hid) + 0
      have hmemiff : (x.hid ∈ st.lru ++ [st.nextId]) ↔ x.hid ∈ st.lru := by
        simp [List.mem_append, hxn]
      have hcnt2 : (st.handed ++ [st.nextId]).count x.hid = st.handed.count x.hid := by
        rw [List.count_append]
        simp [hxn]
      rw [hcnt2]
      rw [show trueRefs st x.hid = (if x.hid ∈ st.lru then 1 else 0)
        + st.handed.count x.hid from rfl] at hrx
      by_cases hin : x.hid ∈ st.lru
      · rw [if_pos (hmemiff.mpr hin)]
        rw [if_pos hin] at hrx
        omega
      · rw [if_neg (fun hcon => hin (hmemiff.mp hcon))]
        rw [if_neg hin] at hrx
        omega
    · simp only [List.mem_singleton] at h1
      subst h1
      show 2 = ((if st.nextId ∈ st.lru ++ [st.nextId] then 1 else 0)
        + (st.handed ++ [st.nextId]).count st.nextId) + 0
      rw [if_pos (List.mem_append_right _ (by simp))]
      rw [List.count_append]
      have hz : st.handed.count st.nextId = 0 := List.count_eq_zero.mpr hnh
      rw [hz]
      simp
  · show ((st.allocLog ++ [(⟨st.nextId, k, v, c, 2⟩ : LRUHandle)]).map LRUHandle.hid).Nodup
    rw [List.map_append]
    refine List.Nodup.append hinv.allocNodup (by simp) ?_
    intro a ha hb
    simp at hb
    rcases List.mem_map.mp ha with ⟨x, hx, hxa⟩
    exact hna x hx (hxa.trans hb)
  · intro j
    constructor
    · intro hj
      have hj2 : j < st.nextId + 1 := hj
      by_cases hjn : j = st.nextId
      · exact ⟨⟨st.nextId, k, v, c, 2⟩, List.mem_append_right _ (by simp), by rw [hjn]⟩
      · have hjlt : j < st.nextId := by omega
        rcases (hinv.allocAll j).mp hjlt with ⟨a, ha, hah⟩
        exact ⟨a, List.mem_append_left _ ha, hah⟩
    · rintro ⟨a, ha, hah⟩
      show j < st.nextId + 1
      rcases List.mem_append.mp ha with h1 | h1
      · have := (hinv.allocAll j).mpr ⟨a, h1, hah⟩
        omega
      · simp only [List.mem_singleton] at h1
        rw [h1] at hah
        have : st.nextId = j := hah
        omega
  · intro x hx
    rcases List.mem_append.mp hx with h1 | h1
    · rcases hinv.allocMatch x h1 with ⟨a, ha, ha1, ha2, ha3, ha4⟩
      exact ⟨a, List.mem_append_left _ ha, ha1, ha2, ha3, ha4⟩
    · simp only [List.mem_singleton] at h1
      subst h1
      exact ⟨⟨st.nextId, k, v, c, 2⟩, List.mem_append_right _ (by simp), rfl, rfl, rfl, rfl⟩
  · intro d hd
    rcases hinv.logAlloc d hd with ⟨a, ha, h1, h2, h3⟩
    exact ⟨a, List.mem_append_left _ ha, h1, h2, h3⟩
  · intro x hx d hd
    rcases List.mem_append.mp hx with h1 | h1
    · exact hinv.heapNotLogged x h1 d hd
    · simp only [List.mem_singleton] at h1
      subst h1
      exact hndl d hd
  · intro j hj
    have hj2 : j < st.nextId + 1 := hj
    by_cases hjn : j = st.nextId
    · exact Or.inl ⟨⟨st.nextId, k, v, c, 2⟩, List.mem_append_right _ (by simp), by rw [hjn]⟩
    · have hjlt : j < st.nextId := by omega
      rcases hinv.allLive j hjlt with ⟨x, hx, hxh⟩ | hlog
      · exact Or.inl ⟨x, List.mem_append_left _ hx, hxh⟩
      · exact Or.inr hlog

/-- After an insert that replaced an existing binding of the same key, the
state just after unlinking the replaced entry from the LRU list is
well formed up to the pending Unref of the replaced entry. -/
theorem insertedState_inv_some (st : CacheState) (k : Key) (v c : Nat) (oldId : Nat)
    (hinv : CacheInv st) (hold : tableLookup st.table k = some oldId) :
    CacheInvAux { insertedState st k v c with
        lru := (insertedState st k v c).lru.erase oldId }
      (fun j => if j = oldId then 1 else 0) := by
  obtain ⟨hfr, hnl, hnh, hna, hndl⟩ := fresh_facts st hinv
  have hbind : (k, oldId) ∈ st.table := tableLookup_some hold
  rcases hinv.tableLru (k, oldId) hbind with ⟨holdlru0, y0, hy0m, hy0h0, hy0k0⟩
  have holdlru : oldId ∈ st.lru := holdlru0
  have hy0h : y0.hid = oldId := hy0h0
  have hy0k : y0.key = k := hy0k0
  have holdn : oldId ≠ st.nextId := by
    have := hinv.heapLt y0 hy0m
    rw [hy0h] at this
    omega
  have hti : tableInsert st.table k st.nextId
      = st.table.map (fun p => if p.1 == k then (k, st.nextId) else p) := by
    unfold tableInsert
    rw [if_pos (tableLookup_some_isSome hold)]
  have hmemB : ∀ q : Key × Nat,
      q ∈ st.table.map (fun p => if p.1 == k then (k, st.nextId) else p) ↔
        ((q ∈ st.table ∧ q.1 ≠ k) ∨ q = (k, st.nextId)) := by
    intro q
    constructor
    · intro hq
      rcases List.mem_map.mp hq with ⟨p, hp, hpq⟩
      by_cases hpk : p.1 = k
      · right
        rw [← hpq]
        simp [hpk]
      · left
        have hb : (p.1 == k) = false := by simp [hpk]
        rw [hb] at hpq
        simp at hpq
        rw [← hpq]
        exact ⟨hp, hpk⟩
    · intro hq
      rcases hq with ⟨hq1, hq2⟩ | hq1
      · refine List.mem_map.mpr ⟨q, hq1, ?_⟩
        have hb : (q.1 == k) = false := by simp [hq2]
        simp [hb]
      · refine List.mem_map.mpr ⟨(k, oldId), hbind, ?_⟩
        simp [hq1]
  have huniq : ∀ q ∈ st.table, q.2 = oldId → q = (k, oldId) := by
    intro q hq hq2
    rcases hinv.tableLru q hq with ⟨-, y, hym, hyh, hyk⟩
    have hye : y = y0 := hid_unique hinv.heapNodup hym hy0m (by rw [hyh, hq2, hy0h])
    have hqk : q.1 = (k, oldId).1 := by
      show q.1 = k
      rw [← hyk, hye, hy0k]
    exact table_key_unique hinv.tableKeys hq hbind hqk
  have hlruB : (st.lru ++ [st.nextId]).erase oldId
      = st.lru.erase oldId ++ [st.nextId] := List.erase_append_left _ holdlru
  unfold insertedState
  rw [hti]
  dsimp only
  rw [hlruB]
  refine ⟨?_, ?_, ?_, ?_, ?_, ?_, ?_, ?_, ?_, ?_, ?_, ?_, ?_, ?_, hinv.logNodup,
    ?_, ?_, ?_⟩
  · show ((st.heap ++ [(⟨st.nextId, k, v, c, 2⟩ : LRUHandle)]).map LRUHandle.hid).Nodup
    rw [List.map_append]
    refine List.Nodup.append hinv.heapNodup (by simp) ?_
    intro a ha hb
    simp at hb
    rcases List.mem_map.mp ha with ⟨x, hx, hxa⟩
    exact hfr x hx (hxa.trans hb)
  · intro x hx
    show x.hid < st.nextId + 1
    rcases List.mem_append.mp hx with h1 | h1
    · have := hinv.heapLt x h1
      omega
    · simp only [List.mem_singleton] at h1
      subst h1
      show st.nextId < st.nextId + 1
      omega
  · show st.usage + c = chargeSum (st.heap ++ [(⟨st.nextId, k, v, c, 2⟩ : LRUHandle)])
    rw [chargeSum_append, hinv.usageEq]
    simp [chargeSum]
  · show st.trackerUsage + c = chargeSum (st.heap ++ [(⟨st.nextId, k, v, c, 2⟩ : LRUHandle)])
    rw [chargeSum_append, hinv.trackerEq]
    simp [chargeSum]
  · show (st.lru.erase oldId ++ [st.nextId]).Nodup
    refine List.Nodup.append (hinv.lruNodup.erase oldId) (by simp) ?_
    intro a ha hb
    simp only [List.mem_singleton] at hb
    exact hnl (hb ▸ List.mem_of_mem_erase ha)
  · intro j hj
    rcases List.mem_append.mp hj with h1 | h1
    · rcases hinv.lruLive j (List.mem_of_mem_erase h1) with ⟨x, hx, hxh⟩
      exact ⟨x, List.mem_append_left _ hx, hxh⟩
    · simp only [List.mem_singleton] at h1
      exact ⟨⟨st.nextId, k, v, c, 2⟩, List.mem_append_right _ (by simp), by rw [h1]⟩
  · intro j hj
    rcases List.mem_append.mp hj with h1 | h1
    · rcases hinv.handedLive j h1 with ⟨x, hx, hxh⟩
      exact ⟨x, List.mem_append_left _ hx, hxh⟩
    · simp only [List.mem_singleton] at h1
      exact ⟨⟨st.nextId, k, v, c, 2⟩, List.mem_append_right _ (by simp), by rw [h1]⟩
  · show ((st.table.map (fun p => if p.1 == k then (k, st.nextId) else p)).map Prod.fst).Nodup
    rw [tableInsert_replace_keys]
    exact hinv.tableKeys
  · intro q hq
    rcases (hmemB q).mp hq with ⟨hq1, hq2⟩ | hq1
    · rcases hinv.tableLru q hq1 with ⟨hql, y, hym, hyh, hyk⟩
      have hqo : q.2 ≠ oldId := by
        intro hcon
        have := huniq q hq1 hcon
        exact hq2 (congrArg Prod.fst this)
      refine ⟨List.mem_append_left _ ?_, y, List.mem_append_left _ hym, hyh, hyk⟩
      rw [hinv.lruNodup.mem_erase_iff]
      exact ⟨hqo, hql⟩
    · rw [hq1]
      exact ⟨List.mem_append_right _ (by simp), ⟨st.nextId, k, v, c, 2⟩,
        List.mem_append_right _ (by simp), rfl, rfl⟩
  · intro j hj
    rcases List.mem_append.mp hj with h1 | h1
    · rw [hinv.lruNodup.mem_erase_iff] at h1
      rcases hinv.lruTable j h1.2 with ⟨k1, hk1⟩
      refine ⟨k1, (hmemB (k1, j)).mpr (Or.inl ⟨hk1, ?_⟩)⟩
      intro hcon
      have : (k1, j) = (k, oldId) :=
        table_key_unique hinv.tableKeys hk1 hbind hcon
      exact h1.1 (congrArg Prod.snd this)
    · simp only [List.mem_singleton] at h1
      subst h1
      exact ⟨k, (hmemB (k, st.nextId)).mpr (Or.inr rfl)⟩
  · intro x hx
    rcases List.mem_append.mp hx with h1 | h1
    · have hxn : x.hid ≠ st.nextId := hfr x h1
      have hrx := hinv.refsEq x h1
      rw [show trueRefs st x.hid = (if x.hid ∈ st.lru then 1 else 0)
        + st.handed.count x.hid from rfl] at hrx
      show x.refs = ((if x.hid ∈ st.lru.erase oldId ++ [st.nextId] then 1 else 0)
        + (st.handed ++ [st.nextId]).count x.hid) + (if x.hid = oldId then 1 else 0)
      have hcnt2 : (st.handed ++ [st.nextId]).count x.hid = st.handed.count x.hid := by
        rw [List.count_append]
        simp [hxn]
      rw [hcnt2]
      by_cases hxo : x.hid = oldId
      · rw [if_pos hxo]
        have hnm : x.hid ∉ st.lru.erase oldId ++ [st.nextId] := by
          intro hcon
          rcases List.mem_append.mp hcon with h2 | h2
          · rw [hxo] at h2
            exact hinv.lruNodup.not_mem_erase h2
          · simp only [List.mem_singleton] at h2
            exact hxn h2
        rw [if_neg hnm]
        rw [if_pos (by rw [hxo]; exact holdlru)] at hrx
        omega
      · rw [if_neg hxo]
        have hmemiff : (x.hid ∈ st.lru.erase oldId ++ [st.nextId]) ↔ x.hid ∈ st.lru := by
          constructor
          · intro hcon
            rcases List.mem_append.mp hcon with h2 | h2
            · exact List.mem_of_mem_erase h2
            · simp only [List.mem_singleton] at h2
              exact absurd h2 hxn
          · intro h2
            refine List.mem_append_left _ ?_
            rw [hinv.lruNodup.mem_erase_iff]
            exact ⟨hxo, h2⟩
        by_cases hin : x.hid ∈ st.lru
        · rw [if_pos (hmemiff.mpr hin)]
          rw [if_pos hin] at hrx
          omega
        · rw [if_neg (fun hcon => hin (hmemiff.mp hcon))]
          rw [if_neg hin] at hrx
          omega
    · simp only [List.mem_singleton] at h1
      subst h1
      show 2 = ((if st.nextId ∈ st.lru.erase oldId ++ [st.nextId] then 1 else 0)
        + (st.handed ++ [st.nextId]).count st.nextId)
        + (if st.nextId = oldId then 1 else 0)
      rw [if_pos (List.mem_append_right _ (by simp))]
      rw [if_neg (fun hcon => holdn hcon.symm)]
      rw [List.count_append]
      have hz : st.handed.count st.nextId = 0 := List.count_eq_zero.mpr hnh
      rw [hz]
      simp
  · show ((st.allocLog ++ [(⟨st.nextId, k, v, c, 2⟩ : LRUHandle)]).map LRUHandle.hid).Nodup
    rw [List.map_append]
    refine List.Nodup.append hinv.allocNodup (by simp) ?_
    intro a ha hb
    simp at hb
    rcases List.mem_map.mp ha with ⟨x, hx, hxa⟩
    exact hna x hx (hxa.trans hb)
  · intro j
    constructor
    · intro hj
      have hj2 : j < st.nextId + 1 := hj
      by_cases hjn : j = st.nextId
      · exact ⟨⟨st.nextId, k, v, c, 2⟩, List.mem_append_right _ (by simp), by rw [hjn]⟩
      · have hjlt : j < st.nextId := by omega
        rcases (hinv.allocAll j).mp hjlt with ⟨a, ha, hah⟩
        exact ⟨a, List.mem_append_left _ ha, hah⟩
    · rintro ⟨a, ha, hah⟩
      show j < st.nextId + 1
      rcases List.mem_append.mp ha with h1 | h1
      · have := (hinv.allocAll j).mpr ⟨a, h1, hah⟩
        omega
      · simp only [List.mem_singleton] at h1
        rw [h1] at hah
        have : st.nextId = j := hah
        omega
  · intro x hx
    rcases List.mem_append.mp hx with h1 | h1
    · rcases hinv.allocMatch x h1 with ⟨a, ha, ha1, ha2, ha3, ha4⟩
      exact ⟨a, List.mem_append_left _ ha, ha1, ha2, ha3, ha4⟩
    · simp only [List.mem_singleton] at h1
      subst h1
      exact ⟨⟨st.nextId, k, v, c, 2⟩, List.mem_append_right _ (by simp), rfl, rfl, rfl, rfl⟩
  · intro d hd
    rcases hinv.logAlloc d hd with ⟨a, ha, h1, h2, h3⟩
    exact ⟨a, List.mem_append_left _ ha, h1, h2, h3⟩
  · intro x hx d hd
    rcases List.mem_append.mp hx with h1 | h1
    · exact hinv.heapNotLogged x h1 d hd
    · simp only [List.mem_singleton] at h1
      subst h1
      exact hndl d hd
  · intro j hj
    have hj2 : j < st.nextId + 1 := hj
    by_cases hjn : j = st.nextId
    · exact Or.inl ⟨⟨st.nextId, k, v, c, 2⟩, List.mem_append_right _ (by simp), by rw [hjn]⟩
    · have hjlt : j < st.nextId := by omega
      rcases hinv.allLive j hjlt with ⟨x, hx, hxh⟩ | hlog
      · exact Or.inl ⟨x, List.mem_append_left _ hx, hxh⟩
      · exact Or.inr hlog

/-- Insert preserves the invariant. -/
theorem insert_pres (st : CacheState) (k : Key) (v c : Nat) (hinv : CacheInv st) :
    CacheInv (CacheInsert st k v c).2 := by
  rw [cacheInsert_eq]
  cases hold : tableLookup st.table k with
  | none => exact evict_pres _ _ rfl (insertedState_inv_none st k v c hinv hold)
  | some oldId =>
    exact evict_pres _ _ rfl
      (unref_pres _ oldId (insertedState_inv_some st k v c oldId hinv hold))

/-- Every well-formed operation preserves the invariant. -/
theorem cacheStep_pres (st : CacheState) (op : CacheOp) (hinv : CacheInv st)
    (hwf : wfOp st op = true) : CacheInv (cacheStep st op) := by
  cases op with
  | opInsert k v c => exact insert_pres st k v c hinv
  | opLookup k => exact lookup_pres st k hinv
  | opRelease i =>
    have hmem : i ∈ st.handed := by
      simpa [wfOp] using hwf
    exact release_pres st i hinv hmem
  | opErase k => exact erase_pres st k hinv

/-- A freshly constructed shard is well formed. -/
theorem initCache_inv (capacity : Nat) : CacheInv (initCache capacity) := by
  unfold CacheInv initCache
  refine ⟨by simp, by simp, rfl, rfl, by simp, by simp, by simp, by simp, by simp,
    by simp, by simp, by simp, ?_, by simp, by simp, by simp, by simp, ?_⟩
  · intro i
    constructor
    · intro h
      exact absurd (show i < 0 from h) (by omega)
    · rintro ⟨a, ha, -⟩
      cases ha
  · intro i h
    exact absurd (show i < 0 from h) (by omega)

/-- Well-formed traces preserve the invariant. -/
theorem foldl_cache_inv : ∀ (ops : List CacheOp) (st : CacheState), CacheInv st →
    wfTrace st ops = true → CacheInv (ops.foldl cacheStep st) := by
  intro ops
  induction ops with
  | nil =>
    intro st h _
    simpa using h
  | cons op rest ih =>
    intro st h hwf
    simp only [wfTrace, Bool.and_eq_true] at hwf
    rw [List.foldl_cons]
    exact ih (cacheStep st op) (cacheStep_pres st op h hwf.1) hwf.2

/-- Every state reached by a well-formed trace from a fresh shard is well
formed. -/
theorem runCache_inv (capacity : Nat) (ops : List CacheOp)
    (hwf : wfTrace (initCache capacity) ops = true) :
    CacheInv (runCache capacity ops) :=
  foldl_cache_inv ops (initCache capacity) (initCache_inv capacity) hwf

/-! ### Claim C4: usage accounting -/

/-- Trace of the C4 counterexample: two inserts of the same key; the first
handle is still outstanding when the second insert replaces the entry. -/
def c4Trace : List CacheOp := [CacheOp.opInsert [7] 0 5, CacheOp.opInsert [7] 1 3]

/-- C4 counterexample: after a key replacement while the caller still holds
the replaced entry's handle, usage (8) differs from the sum of the charges of
the entries reachable from the shard's hash table and LRU list (3), so the
claim is false at this input. -/
theorem c4_counterexample :
    ¬ (runCache 100 c4Trace).usage = inCacheChargeSum (runCache 100 c4Trace) := by
  decide

/-- C4 amended: at every point when no shard operation is in progress, usage
equals the sum of the charges of all live (not yet freed) entries — the
cache-resident entries plus replaced or evicted entries whose handles are
still outstanding; in particular, whenever every live entry is still on the
LRU list, usage coincides with the cache-resident sum. -/
theorem c4_usage_accounting (cap : Nat) (ops : List CacheOp)
    (hwf : wfTrace (initCache cap) ops = true) :
    (runCache cap ops).usage = chargeSum (runCache cap ops).heap
    ∧ ((∀ e ∈ (runCache cap ops).heap, e.hid ∈ (runCache cap ops).lru) →
        (runCache cap ops).usage = inCacheChargeSum (runCache cap ops)) := by
  have h := runCache_inv cap ops hwf
  refine ⟨h.usageEq, ?_⟩
  intro hall
  rw [h.usageEq]
  unfold inCacheChargeSum
  congr 1
  rw [List.filter_eq_self.mpr]
  intro e he
  simpa using hall e he

/-- Witness for the amended C4 at the concrete replacement trace. -/
theorem c4_usage_accounting_witness :
    (runCache 100 c4Trace).usage = chargeSum (runCache 100 c4Trace).heap
    ∧ ((∀ e ∈ (runCache 100 c4Trace).heap, e.hid ∈ (runCache 100 c4Trace).lru) →
        (runCache 100 c4Trace).usage = inCacheChargeSum (runCache 100 c4Trace)) :=
  c4_usage_accounting 100 c4Trace (by decide)

/-! ### Claim C8: reference counting and the deleter -/

/-- C8: along every well-formed operation sequence, an entry held by the cache
(on the LRU list) or by a caller (outstanding handle) is live with at least
one reference; the deleter has run at most once per allocated entry, exactly
for the entries that are no longer live, and always with the key and value the
entry was created with; and the memory tracker balance equals the charges of
the live entries (each freed entry released its charge). -/
theorem c8_refcount_deleter (cap : Nat) (ops : List CacheOp)
    (hwf : wfTrace (initCache cap) ops = true) :
    (∀ i, (i ∈ (runCache cap ops).lru ∨ i ∈ (runCache cap ops).handed) →
      ∃ e ∈ (runCache cap ops).heap, e.hid = i ∧ 1 ≤ e.refs)
    ∧ (((runCache cap ops).deleterLog.map (fun d => d.1)).Nodup)
    ∧ (∀ d ∈ (runCache cap ops).deleterLog, ∃ a ∈ (runCache cap ops).allocLog,
        a.hid = d.1 ∧ a.key = d.2.1 ∧ a.value = d.2.2)
    ∧ (∀ i, i < (runCache cap ops).nextId →
        ((∃ e ∈ (runCache cap ops).heap, e.hid = i) ↔
          ¬ ∃ d ∈ (runCache cap ops).deleterLog, d.1 = i))
    ∧ (runCache cap ops).trackerUsage = chargeSum (runCache cap ops).heap := by
  have h := runCache_inv cap ops hwf
  refine ⟨?_, h.logNodup, h.logAlloc, ?_, h.trackerEq⟩
  · intro i hi
    have hlive : ∃ e ∈ (runCache cap ops).heap, e.hid = i := by
      rcases hi with hi | hi
      · exact h.lruLive i hi
      · exact h.handedLive i hi
    rcases hlive with ⟨e, he, heh⟩
    refine ⟨e, he, heh, ?_⟩
    have h2 : e.refs = trueRefs (runCache cap ops) e.hid + 0 := h.refsEq e he
    have h3 : 1 ≤ trueRefs (runCache cap ops) e.hid := by
      unfold trueRefs
      rw [heh]
      rcases hi with hi | hi
      · rw [if_pos hi]
        omega
      · have := List.count_pos_iff.mpr hi
        omega
    omega
  · intro i hlt
    constructor
    · rintro ⟨e, he, heh⟩ ⟨d, hd, hdh⟩
      exact h.heapNotLogged e he d hd (by rw [hdh, heh])
    · intro hnd
      rcases h.allLive i hlt with he | hd
      · exact he
      · exact absurd hd hnd

/-- Trace of the C8 witness: insert a key, release the caller handle, then
erase the key — the entry's refs reach zero and the deleter runs once. -/
def c8Trace : List CacheOp :=
  [CacheOp.opInsert [1] 5 2, CacheOp.opRelease 0, CacheOp.opErase [1]]

/-- Witness for C8 at a trace that drives an entry's refs to zero. -/
theorem c8_refcount_deleter_witness :
    (∀ i, (i ∈ (runCache 100 c8Trace).lru ∨ i ∈ (runCache 100 c8Trace).handed) →
      ∃ e ∈ (runCache 100 c8Trace).heap, e.hid = i ∧ 1 ≤ e.refs)
    ∧ (((runCache 100 c8Trace).deleterLog.map (fun d => d.1)).Nodup)
    ∧ (∀ d ∈ (runCache 100 c8Trace).deleterLog, ∃ a ∈ (runCache 100 c8Trace).allocLog,
        a.hid = d.1 ∧ a.key = d.2.1 ∧ a.value = d.2.2)
    ∧ (∀ i, i < (runCache 100 c8Trace).nextId →
        ((∃ e ∈ (runCache 100 c8Trace).heap, e.hid = i) ↔
          ¬ ∃ d ∈ (runCache 100 c8Trace).deleterLog, d.1 = i))
    ∧ (runCache 100 c8Trace).trackerUsage = chargeSum (runCache 100 c8Trace).heap :=
  c8_refcount_deleter 100 c8Trace (by decide)
